import Mathlib

/-!
Verification development for the clinical-api repository (Flask backend).

The Python sources `src/backend/app.py` and `src/backend/prepare_data.py`
are shallowly embedded below: Python `str` becomes `List Char`, JSON values
become the inductive type `J`, `json.dumps`/`json.loads` become `dumpV`/`loads`,
and the HTTP route handler `identify_components` becomes a pure function
parameterized by the outcome of the external completion call.
-/

set_option maxRecDepth 10000

/-- Character for a left curly brace (written numerically). -/
def lbrace : Char := Char.ofNat 123

/-- Character for a right curly brace (written numerically). -/
def rbrace : Char := Char.ofNat 125

/-- Whitespace characters stripped by Python `str.strip()` (ASCII fragment:
space, tab, newline, carriage return, vertical tab, form feed). -/
def isPyWs (c : Char) : Bool :=
  c = ' ' || c = '\t' || c = '\n' || c = '\r' || c = Char.ofNat 11 || c = Char.ofNat 12

/-- Python `s.strip()`: drop leading and trailing whitespace. -/
def pyStrip (l : List Char) : List Char :=
  ((l.dropWhile isPyWs).reverse.dropWhile isPyWs).reverse

/-- Python `s.lower()` (ASCII case folding; all keyword constants are ASCII). -/
def pyLower (l : List Char) : List Char := l.map Char.toLower

/-- Python substring test `pat in l` for strings. -/
def containsSub (pat : List Char) : List Char → Bool
  | [] => pat.isEmpty
  | c :: rest => pat.isPrefixOf (c :: rest) || containsSub pat rest

/-- Python truthiness `if a: a else b` for the string idiom `a or b`. -/
def pyOr (a b : List Char) : List Char := if a.isEmpty then b else a

/-- JSON values as produced by Python `json.loads`: objects keep key order
(first insertion position, as in a Python `dict`). -/
inductive J where
  | null : J
  | bool (b : Bool) : J
  | num (m : Int) (e : Int) : J
  | str (s : List Char) : J
  | arr (elems : List J) : J
  | obj (pairs : List (List Char × J)) : J

/-- Lookup of a key in a JSON object's pair list (Python `dict` access). -/
def jLookup : J → List Char → Option J
  | J.obj kvs, k => (kvs.find? (fun kv => kv.1 == k)).map (fun kv => kv.2)
  | _, _ => none

/-- Python `d[k] = v` on a dict represented as an ordered pair list: update in
place if the key exists, otherwise append at the end. -/
def setKey (kvs : List (List Char × J)) (k : List Char) (v : J) : List (List Char × J) :=
  if kvs.any (fun kv => kv.1 == k) then
    kvs.map (fun kv => if kv.1 == k then (k, v) else kv)
  else kvs ++ [(k, v)]

/-- Building a Python dict from a pair list: later bindings of the same key
overwrite the earlier value in place (`json.loads` object semantics). -/
def dedupKeys (l : List (List Char × J)) : List (List Char × J) :=
  l.foldl (fun acc kv => setKey acc kv.1 kv.2) []

/-- Decimal digit character for a value below ten. -/
def digitChar (d : Nat) : Char := Char.ofNat (48 + d)

/-- Is the character an ASCII decimal digit. -/
def isDigit (c : Char) : Bool := 48 ≤ c.toNat && c.toNat ≤ 57

/-- Numeric value of an ASCII digit character. -/
def digitVal (c : Char) : Nat := c.toNat - 48

/-- Fueled production of the decimal digits of a natural number. -/
def natDigitsGo : Nat → Nat → List Char
  | 0, _ => []
  | fuel + 1, n => if n < 10 then [digitChar n] else natDigitsGo fuel (n / 10) ++ [digitChar (n % 10)]

/-- Decimal digit string of a natural number (Python `str(n)` / `format`). -/
def natDigits (n : Nat) : List Char := natDigitsGo (n + 1) n

/-- Value of a decimal digit string (most significant digit first). -/
def digitsVal (ds : List Char) : Nat := ds.foldl (fun acc c => acc * 10 + digitVal c) 0

/-- Left pad a digit string with zeros to width 3, Python `format(n, "03d")`. -/
def pad3 (ds : List Char) : List Char := List.replicate (3 - ds.length) '0' ++ ds

/-- Sequential component identifier `comp_{i:03d}` from `app.py` line 139. -/
def compId (n : Nat) : List Char := ("comp_".data) ++ pad3 (natDigits n)

-- Basic digit lemmas --------------------------------------------------------

theorem digitChar_lt_d800 (d : Nat) (h : d < 10) : (digitChar d).toNat = 48 + d := by
  interval_cases d <;> rfl

theorem digitVal_digitChar (d : Nat) (h : d < 10) : digitVal (digitChar d) = d := by
  interval_cases d <;> rfl

theorem isDigit_digitChar (d : Nat) (h : d < 10) : isDigit (digitChar d) = true := by
  interval_cases d <;> rfl

theorem natDigitsGo_correct :
    ∀ fuel n, n < 10 ^ fuel → digitsVal (natDigitsGo fuel n) = n := by
  intro fuel
  induction fuel with
  | zero =>
    intro n h
    have hz : n = 0 := by omega
    subst hz; rfl
  | succ f ih =>
    intro n h
    by_cases hn : n < 10
    · simp [natDigitsGo, hn, digitsVal, digitVal_digitChar n hn]
    · have hdiv : n / 10 < 10 ^ f := by
        apply Nat.div_lt_of_lt_mul
        rw [← pow_succ']; exact h
      have hrec := ih (n / 10) hdiv
      simp only [natDigitsGo, hn, if_false, digitsVal, List.foldl_append, List.foldl_cons,
        List.foldl_nil]
      simp only [digitsVal] at hrec
      rw [hrec, digitVal_digitChar (n % 10) (Nat.mod_lt _ (by norm_num))]
      omega

theorem digitsVal_natDigits (n : Nat) : digitsVal (natDigits n) = n := by
  have h : n < 10 ^ (n + 1) := by
    calc n < n + 1 := Nat.lt_succ_self n
    _ ≤ 10 ^ (n + 1) := Nat.le_of_lt (Nat.lt_pow_self (by norm_num) (n + 1))
  exact natDigitsGo_correct (n + 1) n h

theorem digitsVal_zeros_append :
    ∀ k ds, digitsVal (List.replicate k '0' ++ ds) = digitsVal ds := by
  intro k
  induction k with
  | zero => intro ds; rfl
  | succ m ih =>
    intro ds
    simp only [List.replicate_succ, List.cons_append, digitsVal, List.foldl_cons]
    have : (0 * 10 + digitVal '0') = 0 := by rfl
    rw [this]
    exact ih ds

theorem digitsVal_pad3 (ds : List Char) : digitsVal (pad3 ds) = digitsVal ds :=
  digitsVal_zeros_append _ ds

theorem compId_inj {a b : Nat} (h : compId a = compId b) : a = b := by
  have h2 : pad3 (natDigits a) = pad3 (natDigits b) := List.append_cancel_left h
  have h3 : digitsVal (pad3 (natDigits a)) = digitsVal (pad3 (natDigits b)) := by rw [h2]
  rwa [digitsVal_pad3, digitsVal_pad3, digitsVal_natDigits, digitsVal_natDigits] at h3

-- JSON serialization: Python json.dumps (default separators, ensure_ascii) ---

/-- Zero-padding of a digit string to a fixed width. -/
def padZeros (k : Nat) (ds : List Char) : List Char := List.replicate (k - ds.length) '0' ++ ds

/-- Serialization of the decimal number `m * 10 ^ e` (with `e ≤ 0` in all
values this development serializes): optional sign, integer digits, and a
fractional part of exactly `-e` digits when `e < 0`. -/
def dumpNum (m : Int) (e : Int) : List Char :=
  let s := (-e).toNat
  let a := m.natAbs
  let sign := if m < 0 then ['-'] else []
  if s = 0 then sign ++ natDigits a
  else sign ++ natDigits (a / 10 ^ s) ++ '.' :: padZeros s (natDigits (a % 10 ^ s))

/-- Lowercase hexadecimal digit character for a value below sixteen. -/
def hexDigChar (n : Nat) : Char := if n < 10 then Char.ofNat (48 + n) else Char.ofNat (87 + n)

/-- Four lowercase hex digits of a value below 65536. -/
def hex4 (n : Nat) : List Char :=
  [hexDigChar (n / 4096 % 16), hexDigChar (n / 256 % 16), hexDigChar (n / 16 % 16), hexDigChar (n % 16)]

/-- Escaping of one character as by Python `json.dumps` with `ensure_ascii`:
printable ASCII other than quote and backslash is kept, the short escapes are
used where they exist, everything else becomes `\uXXXX` (a surrogate pair for
characters beyond the basic multilingual plane). -/
def encChar (c : Char) : List Char :=
  if c = '"' then ['\\', '"']
  else if c = '\\' then ['\\', '\\']
  else if c = '\n' then ['\\', 'n']
  else if c = '\r' then ['\\', 'r']
  else if c = '\t' then ['\\', 't']
  else if c.toNat = 8 then ['\\', 'b']
  else if c.toNat = 12 then ['\\', 'f']
  else if 32 ≤ c.toNat ∧ c.toNat ≤ 126 then [c]
  else if c.toNat < 65536 then '\\' :: 'u' :: hex4 c.toNat
  else
    ('\\' :: 'u' :: hex4 (55296 + (c.toNat - 65536) / 1024)) ++
      ('\\' :: 'u' :: hex4 (56320 + (c.toNat - 65536) % 1024))

/-- Escaped body of a JSON string literal. -/
def encStr (s : List Char) : List Char := (s.map encChar).flatten

mutual

/-- Python `json.dumps` of a JSON value (default separators `", "`, `": "`). -/
def dumpV : J → List Char
  | J.null => ("null".data)
  | J.bool true => ("true".data)
  | J.bool false => ("false".data)
  | J.num m e => dumpNum m e
  | J.str s => '"' :: encStr s ++ ['"']
  | J.arr [] => '[' :: [']']
  | J.arr (x :: xs) => '[' :: (dumpItems x xs ++ [']'])
  | J.obj [] => lbrace :: [rbrace]
  | J.obj (kv :: kvs) => lbrace :: (dumpMembers kv kvs ++ [rbrace])
termination_by v => sizeOf v

/-- Comma-and-space separated serialization of array items. -/
def dumpItems : J → List J → List Char
  | x, [] => dumpV x
  | x, y :: rest => dumpV x ++ ',' :: ' ' :: dumpItems y rest
termination_by x xs => sizeOf x + sizeOf xs

/-- Comma-and-space separated serialization of object members. -/
def dumpMembers : (List Char × J) → List (List Char × J) → List Char
  | (k, v), [] => ('"' :: encStr k ++ '"' :: ':' :: ' ' :: dumpV v)
  | (k, v), kv2 :: rest =>
      ('"' :: encStr k ++ '"' :: ':' :: ' ' :: dumpV v) ++ ',' :: ' ' :: dumpMembers kv2 rest
termination_by kv kvs => sizeOf kv + sizeOf kvs

end

mutual

/-- Fuel bound for the recursive-descent parser on a value. -/
def jfuel : J → Nat
  | J.arr [] => 1
  | J.arr (x :: xs) => 1 + jfuelItems x xs
  | J.obj [] => 1
  | J.obj (kv :: kvs) => 1 + jfuelMembers kv kvs
  | _ => 1
termination_by v => sizeOf v

/-- Fuel bound for a nonempty run of array items. -/
def jfuelItems : J → List J → Nat
  | x, [] => 1 + jfuel x
  | x, y :: rest => 1 + jfuel x + jfuelItems y rest
termination_by x xs => sizeOf x + sizeOf xs

/-- Fuel bound for a nonempty run of object members. -/
def jfuelMembers : (List Char × J) → List (List Char × J) → Nat
  | (k, v), [] => 1 + jfuel v
  | (k, v), kv2 :: rest => 1 + jfuel v + jfuelMembers kv2 rest
termination_by kv kvs => sizeOf kv + sizeOf kvs

end

/-- Values whose serialization parses back verbatim: numbers carry a
non-positive exponent (fixed-point decimals) and object keys are distinct. -/
inductive Wf : J → Prop where
  | null : Wf J.null
  | bool (b : Bool) : Wf (J.bool b)
  | num (m : Int) (e : Int) : e ≤ 0 → Wf (J.num m e)
  | str (s : List Char) : Wf (J.str s)
  | arr (xs : List J) : (∀ x ∈ xs, Wf x) → Wf (J.arr xs)
  | obj (kvs : List (List Char × J)) :
      (kvs.map (fun kv => kv.1)).Nodup → (∀ kv ∈ kvs, Wf kv.2) → Wf (J.obj kvs)

-- JSON parsing: Python json.loads ---------------------------------------------

/-- Hexadecimal digit accepted inside a JSON string escape. -/
def decodeHexDig (c : Char) : Option Nat :=
  if 48 ≤ c.toNat ∧ c.toNat ≤ 57 then some (c.toNat - 48)
  else if 97 ≤ c.toNat ∧ c.toNat ≤ 102 then some (c.toNat - 87)
  else if 65 ≤ c.toNat ∧ c.toNat ≤ 70 then some (c.toNat - 55)
  else none

/-- Four hex digits of a `\uXXXX` escape. -/
def decodeHex4 : List Char → Option (Nat × List Char)
  | a :: b :: c :: d :: rest =>
    match decodeHexDig a, decodeHexDig b, decodeHexDig c, decodeHexDig d with
    | some x, some y, some z, some w => some (x * 4096 + y * 256 + z * 16 + w, rest)
    | _, _, _, _ => none
  | _ => none

/-- Fueled JSON string-body parser (called after the opening quote): handles
the short escapes and `\uXXXX`, recombines surrogate pairs, and rejects raw
control characters, as `json.loads` does in strict mode. -/
def parseStr : Nat → List Char → Option (List Char × List Char)
  | 0, _ => none
  | _ + 1, [] => none
  | fuel + 1, c :: rest =>
    if c = '"' then some ([], rest)
    else if c = '\\' then
      match rest with
      | [] => none
      | e :: r2 =>
        if e = '"' ∨ e = '\\' ∨ e = '/' then
          (parseStr fuel r2).map (fun p => (e :: p.1, p.2))
        else if e = 'b' then (parseStr fuel r2).map (fun p => (Char.ofNat 8 :: p.1, p.2))
        else if e = 'f' then (parseStr fuel r2).map (fun p => (Char.ofNat 12 :: p.1, p.2))
        else if e = 'n' then (parseStr fuel r2).map (fun p => ('\n' :: p.1, p.2))
        else if e = 'r' then (parseStr fuel r2).map (fun p => ('\r' :: p.1, p.2))
        else if e = 't' then (parseStr fuel r2).map (fun p => ('\t' :: p.1, p.2))
        else if e = 'u' then
          match decodeHex4 r2 with
          | none => none
          | some (n, r3) =>
            if 55296 ≤ n ∧ n ≤ 56319 then
              match r3 with
              | '\\' :: 'u' :: r4 =>
                match decodeHex4 r4 with
                | none => none
                | some (m2, r5) =>
                  if 56320 ≤ m2 ∧ m2 ≤ 57343 then
                    (parseStr fuel r5).map
                      (fun p => (Char.ofNat (65536 + (n - 55296) * 1024 + (m2 - 56320)) :: p.1, p.2))
                  else (parseStr fuel r3).map (fun p => (Char.ofNat n :: p.1, p.2))
              | _ => (parseStr fuel r3).map (fun p => (Char.ofNat n :: p.1, p.2))
            else (parseStr fuel r3).map (fun p => (Char.ofNat n :: p.1, p.2))
        else none
    else if c.toNat < 32 then none
    else (parseStr fuel rest).map (fun p => (c :: p.1, p.2))

/-- Integer part of a JSON number: a single `0`, or a nonzero digit followed
by digits (the grammar `0|[1-9][0-9]*`). -/
def parseIntDigits : List Char → Option (List Char × List Char)
  | [] => none
  | c :: rest =>
    if c = '0' then some (['0'], rest)
    else if isDigit c then some (c :: rest.takeWhile isDigit, rest.dropWhile isDigit)
    else none

/-- Optional exponent part of a JSON number; consumes nothing on mismatch. -/
def parseExp (l : List Char) : Int × List Char :=
  match l with
  | e :: r =>
    if e = 'e' ∨ e = 'E' then
      let p : Int × List Char := match r with
        | c :: rr =>
          if c = '+' then ((1 : Int), rr)
          else if c = '-' then ((-1 : Int), rr)
          else ((1 : Int), c :: rr)
        | [] => ((1 : Int), [])
      let ds := p.2.takeWhile isDigit
      if ds.isEmpty then ((0 : Int), e :: r)
      else (p.1 * (digitsVal ds : Int), p.2.dropWhile isDigit)
    else ((0 : Int), e :: r)
  | [] => ((0 : Int), [])

/-- Optional leading minus sign of a JSON number. -/
def parseSign (l : List Char) : Bool × List Char :=
  match l with
  | c :: r => if c = '-' then (true, r) else (false, c :: r)
  | [] => (false, [])

/-- Optional fractional part `.digits` of a JSON number; consumes nothing
when the dot is not followed by a digit. -/
def parseFrac (r1 : List Char) : List Char × List Char :=
  match r1 with
  | c :: rr =>
    if c = '.' then
      (let ds := rr.takeWhile isDigit
       if ds.isEmpty then (([] : List Char), c :: rr) else (ds, rr.dropWhile isDigit))
    else (([] : List Char), c :: rr)
  | [] => (([] : List Char), [])

/-- JSON number parser, returning mantissa, decimal exponent and the rest. -/
def parseNum (l : List Char) : Option (Int × Int × List Char) :=
  let p := parseSign l
  match parseIntDigits p.2 with
  | none => none
  | some (ids, r1) =>
    let q := parseFrac r1
    let ex := parseExp q.2
    let mAbs : Nat := digitsVal (ids ++ q.1)
    some (if p.1 then -(mAbs : Int) else (mAbs : Int), ex.1 - (q.1.length : Int), ex.2)

/-- JSON inter-token whitespace. -/
def isJsonWs (c : Char) : Bool := c = ' ' || c = '\t' || c = '\n' || c = '\r'

/-- Skip JSON whitespace. -/
def skipWs (l : List Char) : List Char := l.dropWhile isJsonWs

mutual

/-- Fueled recursive-descent parser for one JSON value. -/
def parseVal : Nat → List Char → Option (J × List Char)
  | 0, _ => none
  | fuel + 1, input =>
    match skipWs input with
    | [] => none
    | c :: rest =>
      if c = lbrace then
        match skipWs rest with
        | c2 :: r2 =>
          if c2 = rbrace then some (J.obj [], r2)
          else parseMembers fuel (c2 :: r2) []
        | [] => none
      else if c = '[' then
        match skipWs rest with
        | c2 :: r2 =>
          if c2 = ']' then some (J.arr [], r2)
          else parseItems fuel (c2 :: r2) []
        | [] => none
      else if c = '"' then
        (parseStr rest.length rest).map (fun p => (J.str p.1, p.2))
      else if ("true".data).isPrefixOf (c :: rest) then some (J.bool true, (c :: rest).drop 4)
      else if ("false".data).isPrefixOf (c :: rest) then some (J.bool false, (c :: rest).drop 5)
      else if ("null".data).isPrefixOf (c :: rest) then some (J.null, (c :: rest).drop 4)
      else (parseNum (c :: rest)).map (fun p => (J.num p.1 p.2.1, p.2.2))

/-- Items of a nonempty JSON array, after the opening bracket. -/
def parseItems : Nat → List Char → List J → Option (J × List Char)
  | 0, _, _ => none
  | fuel + 1, input, acc =>
    match parseVal fuel input with
    | none => none
    | some (v, r) =>
      match skipWs r with
      | ',' :: r2 => parseItems fuel r2 (acc ++ [v])
      | ']' :: r2 => some (J.arr (acc ++ [v]), r2)
      | _ => none

/-- Members of a nonempty JSON object, after the opening brace. -/
def parseMembers : Nat → List Char → List (List Char × J) → Option (J × List Char)
  | 0, _, _ => none
  | fuel + 1, input, acc =>
    match skipWs input with
    | '"' :: r =>
      match parseStr r.length r with
      | none => none
      | some (k, r2) =>
        match skipWs r2 with
        | ':' :: r3 =>
          match parseVal fuel r3 with
          | none => none
          | some (v, r4) =>
            match skipWs r4 with
            | ',' :: r5 => parseMembers fuel r5 (acc ++ [(k, v)])
            | c :: r5 => if c = rbrace then some (J.obj (dedupKeys (acc ++ [(k, v)])), r5) else none
            | [] => none
        | _ => none
    | _ => none

end

/-- Python `json.loads`: parse one JSON value, allowing surrounding
whitespace and rejecting trailing data. The result is `none` exactly when
`json.loads` raises `JSONDecodeError`. -/
def loads (l : List Char) : Option J :=
  match parseVal (l.length + 1) l with
  | some (v, r) => if (skipWs r).isEmpty then some v else none
  | none => none

-- app.py: response parsing stage (lines 116-135) ------------------------------

/-- Fueled scan for the text before the first occurrence of a separator. -/
def takeUntilSep (sep : List Char) : Nat → List Char → List Char
  | 0, _ => []
  | _ + 1, [] => []
  | fuel + 1, c :: rest =>
    if sep.isPrefixOf (c :: rest) then [] else c :: takeUntilSep sep fuel rest

/-- Fence stripping of app.py lines 118-121: when the text starts with a
triple backtick, `result_text.split("```")[1]` is the segment between the
first and second fences (or everything after the first when there is no
second), and a leading `json` tag is dropped. -/
def stripFences (t : List Char) : List Char :=
  if ("```".data).isPrefixOf t then
    let seg := takeUntilSep ("```".data) (t.drop 3).length (t.drop 3)
    if ("json".data).isPrefixOf seg then seg.drop 4 else seg
  else t

/-- Model of `re.search(r'\[.*\]', t, re.DOTALL)` at app.py line 131: with
the greedy star a match exists iff some `[` is followed by a later `]`, and
the matched group then spans from the first `[` to the last `]`. -/
def bracketMatch (t : List Char) : Option (List Char) :=
  match t.findIdx? (fun c => c = '['), t.reverse.findIdx? (fun c => c = ']') with
  | some i, some rj =>
    let j := t.length - 1 - rj
    if i < j then some ((t.drop i).take (j - i + 1)) else none
  | _, _ => none

/-- Response-parsing stage of the identify route (app.py lines 116-135).
The result is the Python variable `components` as of line 137; `none` means
a JSONDecodeError escaped this stage to the route-level handler. -/
def parse_model_output (result_text : List Char) : Option J :=
  let t := stripFences result_text
  match loads t with
  | some (J.obj kvs) =>
    match jLookup (J.obj kvs) ("components".data) with
    | some c => some c
    | none => some (J.arr [J.obj kvs])
  | some v => some v
  | none =>
    match bracketMatch t with
    | some s => loads s
    | none => some (J.arr [])

-- app.py: component id assignment (lines 137-139) -----------------------------

/-- One iteration of the id loop: `comp["component_id"] = f"comp_{i+1:03d}"`;
`none` models the TypeError raised when the element is not a dict. -/
def assignObjId (i : Nat) : J → Option J
  | J.obj kvs => some (J.obj (setKey kvs ("component_id".data) (J.str (compId (i + 1)))))
  | _ => none

/-- Id assignment over a list with a running index. -/
def assignList : Nat → List J → Option (List J)
  | _, [] => some []
  | i, x :: rest =>
    match assignObjId i x with
    | none => none
    | some y => (assignList (i + 1) rest).map (fun ys => y :: ys)

/-- The loop `for i, comp in enumerate(components)` of app.py lines 137-139.
Iterating a dict yields its keys and iterating a string yields characters, so
nonempty dicts and strings raise on item assignment while empty ones pass
through unchanged; non-iterable values raise at once. `none` models the
TypeError escaping to the route-level handler. -/
def assignIds : J → Option J
  | J.arr xs => (assignList 0 xs).map J.arr
  | J.obj [] => some (J.obj [])
  | J.str [] => some (J.str [])
  | _ => none

-- app.py: the identify_components route handler -------------------------------

/-- Token usage accounting reported by the external call. -/
structure Usage where
  prompt_tokens : Nat
  completion_tokens : Nat
  total_tokens : Nat

/-- Outcome of the external chat-completion call: an exception, or the
completion text with usage accounting. -/
inductive ExtCall where
  | fail : ExtCall
  | ok (content : List Char) (u : Usage) : ExtCall

/-- An HTTP response: status code and JSON body. -/
structure Resp where
  status : Nat
  body : J

/-- The model name constant of app.py line 29. -/
def MODEL : List Char := "gpt-4o-mini".data

/-- The 400 responses of app.py lines 96 and 100. -/
def errorResp (msg : List Char) : Resp := ⟨400, J.obj [("error".data, J.str msg)]⟩

/-- The catch-all 500 response of app.py lines 153-159. -/
def serverErrorResp (msg : List Char) : Resp :=
  ⟨500, J.obj [("success".data, J.bool false), ("error".data, J.str msg),
               ("components".data, J.arr [])]⟩

/-- Python truthiness of a JSON value (the `if not data` check). -/
def pyFalsy : J → Bool
  | J.null => true
  | J.bool b => !b
  | J.num m _ => m == 0
  | J.str s => s.isEmpty
  | J.arr l => l.isEmpty
  | J.obj l => l.isEmpty

/-- Python `"text" in data`: key membership for dicts, element equality for
lists, substring for strings; `none` models the TypeError on other operands. -/
def pyContains (needle : List Char) : J → Option Bool
  | J.obj kvs => some (kvs.any (fun kv => kv.1 == needle))
  | J.arr l => some (l.any (fun x => match x with | J.str s => s == needle | _ => false))
  | J.str s => some (containsSub needle s)
  | _ => none

/-- Python `data["text"]`: `none` models KeyError / TypeError. -/
def pyGetItem : J → List Char → Option J
  | J.obj kvs, k => (kvs.find? (fun kv => kv.1 == k)).map (fun kv => kv.2)
  | _, _ => none

/-- Python `value.strip()`: only strings have `.strip`; `none` models the
AttributeError on any other value. -/
def pyStripAttr : J → Option (List Char)
  | J.str s => some (pyStrip s)
  | _ => none

/-- Python `len(components)` on the values reachable at app.py line 144. -/
def pyLen : J → Nat
  | J.arr l => l.length
  | J.obj kvs => kvs.length
  | J.str s => s.length
  | _ => 0

/-- The usage sub-object of the 200 response (app.py lines 146-150). -/
def usageJson (u : Usage) : J :=
  J.obj [("prompt_tokens".data, J.num u.prompt_tokens 0),
         ("completion_tokens".data, J.num u.completion_tokens 0),
         ("total_tokens".data, J.num u.total_tokens 0)]

/-- The identify_components route handler (app.py lines 90-159) as a pure
function of the parsed request body `data` and the external-call outcome
`ext`. Every exception site inside the `try` block routes to the catch-all
500 response, matching lines 153-159. -/
def identify_components (ext : ExtCall) (data : J) : Resp :=
  if pyFalsy data then errorResp ("Text field is required".data)
  else
    match pyContains ("text".data) data with
    | none => serverErrorResp ("TypeError: argument is not iterable".data)
    | some false => errorResp ("Text field is required".data)
    | some true =>
      match pyGetItem data ("text".data) with
      | none => serverErrorResp ("TypeError: object is not subscriptable".data)
      | some v =>
        match pyStripAttr v with
        | none => serverErrorResp ("AttributeError: object has no attribute strip".data)
        | some text =>
          if text.isEmpty then errorResp ("Text cannot be empty".data)
          else
            match ext with
            | ExtCall.fail => serverErrorResp ("APIConnectionError".data)
            | ExtCall.ok content u =>
              let result_text := pyStrip content
              match parse_model_output result_text with
              | none => serverErrorResp ("JSONDecodeError".data)
              | some components =>
                match assignIds components with
                | none => serverErrorResp ("TypeError: item assignment".data)
                | some comps =>
                  ⟨200, J.obj [("success".data, J.bool true),
                               ("components".data, comps),
                               ("total_components".data, J.num (pyLen comps) 0),
                               ("model_used".data, J.str MODEL),
                               ("usage".data, usageJson u)]⟩

-- prepare_data.py: keyword classifier and reuse estimator ---------------------

/-- The keyword taxonomy of prepare_data.py lines 14-21, in source order. -/
def COMPONENT_TYPES : List (List Char × List (List Char)) :=
  [("boilerplate".data,
     [("compliance".data), ("regulatory".data), ("gcp".data), ("ich".data), ("fda".data),
      ("confidential".data), ("agreement".data), ("ethical".data)]),
   ("definition".data,
     [("defined as".data), ("means".data), ("refers to".data), ("definition".data),
      ("endpoint".data), ("primary endpoint".data), ("secondary endpoint".data)]),
   ("study_section".data,
     [("inclusion criteria".data), ("exclusion criteria".data), ("objective".data),
      ("purpose".data), ("eligibility".data), ("criteria".data)]),
   ("drug_info".data,
     [("dose".data), ("dosage".data), ("formulation".data), ("mechanism".data),
      ("pharmacokinetic".data), ("administration".data), ("drug".data), ("medication".data)]),
   ("safety".data,
     [("adverse event".data), ("serious adverse".data), ("safety".data), ("monitoring".data),
      ("reporting".data), ("side effect".data), ("toxicity".data)]),
   ("procedure".data,
     [("procedure".data), ("assessment".data), ("visit".data), ("schedule".data),
      ("measurement".data), ("evaluation".data), ("blood".data), ("sample".data), ("test".data)])]

/-- Number of a type's keywords occurring in the lowercased text
(`sum(1 for kw in keywords if kw in text_lower)`). -/
def keywordScore (keywords : List (List Char)) (textLower : List Char) : Nat :=
  (keywords.filter (fun kw => containsSub kw textLower)).length

/-- Python `max(xs, key=f)` over a nonempty sequence: the first element
attaining the maximum (a later element replaces the best only when strictly
greater). -/
def maxByFirst {α : Type} (f : α → Nat) : α → List α → α
  | best, [] => best
  | best, x :: rest => if f x > f best then maxByFirst f x rest else maxByFirst f best rest

/-- prepare_data.classify_text (lines 24-34): score each type by keyword
count over the lowercased text, take the first maximal type in insertion
order, and fall back to study_section when every score is zero. -/
def classify_text (text : List Char) : List Char :=
  let tl := pyLower text
  match COMPONENT_TYPES with
  | [] => "study_section".data
  | p :: rest =>
    let best := maxByFirst (fun q => keywordScore q.2 tl) p rest
    if keywordScore best.2 tl > 0 then best.1 else "study_section".data

/-- prepare_data.estimate_reuse_potential (lines 37-43). -/
def estimate_reuse_potential (text : List Char) (comp_type : List Char) : List Char :=
  if comp_type == ("boilerplate".data) then "high".data
  else if comp_type == ("definition".data) then
    (if 200 < text.length then "medium".data else "high".data)
  else "medium".data

-- prepare_data.py: training example builder -----------------------------------

/-- The fixed system message of create_training_example (lines 49-54). -/
def trainSystemMessage : List Char :=
  ("You are an expert clinical documentation analyst. Identify reusable components in clinical documents.\n\nReturn a JSON array of components with this structure:\n[\x7b\"type\": \"component_type\", \"title\": \"Descriptive title\", \"text\": \"Exact text\", \"confidence\": 0.95, \"reuse_potential\": \"high|medium|low\", \"rationale\": \"Why this is reusable\"\x7d]\n\nComponent types: boilerplate, definition, study_section, drug_info, safety, procedure".data)

/-- prepare_data.create_training_example (lines 46-66): the three-message
example whose assistant content is `json.dumps(components)`. -/
def create_training_example (text : List Char) (components : List J) : J :=
  J.obj [("messages".data, J.arr
    [J.obj [("role".data, J.str ("system".data)), ("content".data, J.str trainSystemMessage)],
     J.obj [("role".data, J.str ("user".data)),
            ("content".data,
             J.str (("Identify components in this clinical text:\n\n".data) ++ text))],
     J.obj [("role".data, J.str ("assistant".data)),
            ("content".data, J.str (dumpV (J.arr components)))]])]

/-- A component record with the field set of the data model; `confidence`
is the fixed-point decimal `m / 10 ^ s` given as the pair `(m, s)`. -/
structure ComponentRecord where
  ctype : List Char
  title : List Char
  text : List Char
  confidence : Int × Nat
  reuse_potential : List Char
  rationale : List Char

/-- The JSON object of a component record, keys in the creation order used
throughout prepare_data.py. -/
def ComponentRecord.toJ (c : ComponentRecord) : J :=
  J.obj [("type".data, J.str c.ctype),
         ("title".data, J.str c.title),
         ("text".data, J.str c.text),
         ("confidence".data, J.num c.confidence.1 (-(c.confidence.2 : Int))),
         ("reuse_potential".data, J.str c.reuse_potential),
         ("rationale".data, J.str c.rationale)]

-- prepare_data.py: CSV ingestion (process_csv_file, lines 69-109) -------------

/-- Fueled Python `str.split(sep)` for a nonempty separator: split at each
occurrence left to right, keeping empty segments. -/
def splitSeqGo (sep : List Char) : Nat → List Char → List Char → List (List Char)
  | 0, accRev, l => [accRev.reverse ++ l]
  | _ + 1, accRev, [] => [accRev.reverse]
  | fuel + 1, accRev, c :: rest =>
    if sep.isPrefixOf (c :: rest) then
      accRev.reverse :: splitSeqGo sep fuel [] ((c :: rest).drop sep.length)
    else splitSeqGo sep fuel (c :: accRev) rest

/-- Python `l.split(sep)` for a nonempty separator. -/
def pySplit (sep l : List Char) : List (List Char) := splitSeqGo sep (l.length + 1) [] l

/-- One CSV row: the candidate text columns and specialty columns; `none`
is an absent column (`row.get` then yields the default). -/
structure CsvRow where
  transcription : Option (List Char)
  description : Option (List Char)
  textCol : Option (List Char)
  medical_specialty : Option (List Char)
  specialty : Option (List Char)

/-- Python `row.get(name, default)`. -/
def rowGet (f : Option (List Char)) (d : List Char) : List Char := f.getD d

/-- Line 78: `row.get('transcription','') or row.get('description','') or
row.get('text','')` - the first non-empty candidate in priority order. -/
def selectText (r : CsvRow) : List Char :=
  pyOr (pyOr (rowGet r.transcription []) (rowGet r.description [])) (rowGet r.textCol [])

/-- Line 79: `row.get('medical_specialty','') or row.get('specialty','General')`. -/
def selectSpecialty (r : CsvRow) : List Char :=
  pyOr (rowGet r.medical_specialty []) (rowGet r.specialty ("General".data))

/-- The component dict built at lines 95-102 for paragraph index `i`; `conf`
supplies the random confidence draw for each index. -/
def csvComponent (r : CsvRow) (conf : Nat → Int × Nat) (i : Nat) (para : List Char) : J :=
  J.obj [("type".data, J.str (classify_text para)),
         ("title".data,
          J.str (pyStrip (selectSpecialty r ++ (" - Section ".data) ++ natDigits (i + 1)))),
         ("text".data, J.str (para.take 500)),
         ("confidence".data, J.num (conf i).1 (-((conf i).2 : Nat) : Int)),
         ("reuse_potential".data, J.str (estimate_reuse_potential para (classify_text para))),
         ("rationale".data,
          J.str (("Self-contained ".data) ++ classify_text para ++ (" section".data)))]

/-- The enumerate loop of lines 92-103. -/
def csvComponentsGo (r : CsvRow) (conf : Nat → Int × Nat) : Nat → List (List Char) → List J
  | _, [] => []
  | i, p :: rest => csvComponent r conf i p :: csvComponentsGo r conf (i + 1) rest

/-- Lines 85-88: split on blank lines, strip, keep only stripped paragraphs
that are non-empty and strictly longer than 50 characters; when none
survives, fall back to the first 1000 characters of the whole text. -/
def keptParagraphs (text : List Char) : List (List Char) :=
  let kept := ((pySplit ("\n\n".data) text).map pyStrip).filter
    (fun p => !p.isEmpty && 50 < p.length)
  if kept.isEmpty then [text.take 1000] else kept

/-- Per-row processing of process_csv_file (lines 76-107): select the text
column, skip short rows, split into paragraphs, keep stripped paragraphs
longer than 50 characters, fall back to the first 1000 characters, and build
components for at most the first five paragraphs. `none` is a skipped row. -/
def process_csv_row (conf : Nat → Int × Nat) (r : CsvRow) : Option (List J) :=
  let text := selectText r
  if text.isEmpty || text.length < 100 then none
  else some (csvComponentsGo r conf 0 ((keptParagraphs text).take 5))

-- ---------------------------------------------------------------------------
-- Claim theorems
-- ---------------------------------------------------------------------------

/-- Evaluation of the estimator at type `definition`. -/
theorem est_def (text : List Char) :
    estimate_reuse_potential text ("definition".data)
      = (if 200 < text.length then ("medium".data) else ("high".data)) := by
  unfold estimate_reuse_potential
  rw [if_neg (by decide), if_pos (by decide)]

/-- C6: the Reuse-Potential Estimator is a pure function of `(text, type)`:
`boilerplate` always yields `high`; `definition` yields `high` iff the text
length is at most 200 characters and `medium` otherwise; every other type
yields `medium`; no input yields `low`. -/
theorem c6_theorem (text ty : List Char) :
    (ty = ("boilerplate".data) → estimate_reuse_potential text ty = ("high".data)) ∧
    (ty = ("definition".data) →
      ((estimate_reuse_potential text ty = ("high".data) ↔ text.length ≤ 200) ∧
       (estimate_reuse_potential text ty = ("medium".data) ↔ 200 < text.length))) ∧
    (ty ≠ ("boilerplate".data) → ty ≠ ("definition".data) →
      estimate_reuse_potential text ty = ("medium".data)) ∧
    estimate_reuse_potential text ty ≠ ("low".data) := by
  refine ⟨?_, ?_, ?_, ?_⟩
  · intro h; subst h; rfl
  · intro h; subst h
    rw [est_def]
    by_cases hlen : 200 < text.length
    · rw [if_pos hlen]
      exact ⟨⟨fun hc => absurd hc (by decide), fun hc => by omega⟩,
             ⟨fun _ => hlen, fun _ => rfl⟩⟩
    · rw [if_neg hlen]
      exact ⟨⟨fun _ => by omega, fun _ => rfl⟩,
             ⟨fun hc => absurd hc (by decide), fun hc => absurd hc hlen⟩⟩
  · intro h1 h2
    unfold estimate_reuse_potential
    rw [if_neg (by simpa using h1), if_neg (by simpa using h2)]
  · intro hcontra
    unfold estimate_reuse_potential at hcontra
    split at hcontra
    · exact absurd hcontra (by decide)
    · split at hcontra
      · split at hcontra
        · exact absurd hcontra (by decide)
        · exact absurd hcontra (by decide)
      · exact absurd hcontra (by decide)

/-- C6 witness: at the boundary length 201 the estimator for `definition`
yields `medium` and not `high`. -/
theorem c6_witness :
    ((estimate_reuse_potential (List.replicate 201 'x') ("definition".data) = ("high".data) ↔
        (List.replicate 201 'x' : List Char).length ≤ 200) ∧
     (estimate_reuse_potential (List.replicate 201 'x') ("definition".data) = ("medium".data) ↔
        200 < (List.replicate 201 'x' : List Char).length)) :=
  (c6_theorem (List.replicate 201 'x') ("definition".data)).2.1 rfl

/-- C9: a request whose `text` field holds a non-string value (here the JSON
number 5) is not rejected with the 400 client error: the strip attempt raises
inside the handler and the service returns 500 with `success` false, an error
message, and an empty components list - for every external-call outcome,
since the failure occurs before the external call. -/
theorem c9_theorem (ext : ExtCall) :
    (identify_components ext (J.obj [(("text".data), J.num 5 0)])).status = 500 ∧
    (identify_components ext (J.obj [(("text".data), J.num 5 0)])).status ≠ 400 ∧
    jLookup (identify_components ext (J.obj [(("text".data), J.num 5 0)])).body ("success".data)
      = some (J.bool false) ∧
    (∃ msg, jLookup (identify_components ext (J.obj [(("text".data), J.num 5 0)])).body
      ("error".data) = some (J.str msg)) ∧
    jLookup (identify_components ext (J.obj [(("text".data), J.num 5 0)])).body
      ("components".data) = some (J.arr []) :=
  ⟨rfl,
   by
     intro h
     rw [show (identify_components ext (J.obj [(("text".data), J.num 5 0)])).status = 500
       from rfl] at h
     omega,
   rfl, ⟨_, rfl⟩, rfl⟩

/-- C10: a completion whose output parses to a JSON array with non-object
elements (the text `[1, 2]`) is not returned as components: the id
assignment raises and the service returns 500 with `success` false and an
empty components list. -/
theorem c10_theorem :
    (identify_components (ExtCall.ok ("[1, 2]".data) ⟨10, 20, 30⟩)
        (J.obj [(("text".data), J.str ("Adverse events".data))])).status = 500 ∧
    jLookup (identify_components (ExtCall.ok ("[1, 2]".data) ⟨10, 20, 30⟩)
        (J.obj [(("text".data), J.str ("Adverse events".data))])).body ("success".data)
      = some (J.bool false) ∧
    jLookup (identify_components (ExtCall.ok ("[1, 2]".data) ⟨10, 20, 30⟩)
        (J.obj [(("text".data), J.str ("Adverse events".data))])).body ("components".data)
      = some (J.arr []) ∧
    parse_model_output (pyStrip ("[1, 2]".data)) = some (J.arr [J.num 1 0, J.num 2 0]) ∧
    assignIds (J.arr [J.num 1 0, J.num 2 0]) = none :=
  ⟨rfl, rfl, rfl, rfl, rfl⟩

/-- C1 counterexample: on the input `[oops]` the direct parse fails, the
bracket fallback finds the substring `[oops]`, and its parse raises again;
the exception escapes the parsing stage (`none`) instead of yielding the
empty sequence, refuting the claim that parsing never raises. -/
theorem c1_counterexample :
    parse_model_output ("[oops]".data) = none ∧
    parse_model_output ("[oops]".data) ≠ some (J.arr []) := by
  refine ⟨rfl, ?_⟩
  intro h
  rw [show parse_model_output ("[oops]".data) = none from rfl] at h
  exact Option.noConfusion h

/-- C1 amended: when the direct parse of the fence-stripped text fails, the
parser returns the empty array silently if the stripped text contains no
bracket-delimited candidate; but when a bracket candidate exists whose parse
also fails, the JSONDecodeError escapes the parsing stage (and is converted
to a 500 response by the route-level handler). -/
theorem c1_amended_theorem (t : List Char) (hl : loads (stripFences t) = none) :
    (bracketMatch (stripFences t) = none → parse_model_output t = some (J.arr [])) ∧
    (∀ s, bracketMatch (stripFences t) = some s → loads s = none →
      parse_model_output t = none) := by
  constructor
  · intro hb
    simp only [parse_model_output, hl, hb]
  · intro s hb hs
    simp only [parse_model_output, hl, hb, hs]

/-- C1 witness: concrete garbage with no bracket pair parses to the empty
sequence, and the input `[oops]` escapes with an exception. -/
theorem c1_witness :
    (loads (stripFences ("utterly not json".data)) = none ∧
      bracketMatch (stripFences ("utterly not json".data)) = none ∧
      parse_model_output ("utterly not json".data) = some (J.arr [])) ∧
    (loads (stripFences ("[oops]".data)) = none ∧
      bracketMatch (stripFences ("[oops]".data)) = some ("[oops]".data) ∧
      loads ("[oops]".data) = none ∧
      parse_model_output ("[oops]".data) = none) :=
  ⟨⟨rfl, rfl, (c1_amended_theorem ("utterly not json".data) rfl).1 rfl⟩,
   ⟨rfl, rfl, rfl, (c1_amended_theorem ("[oops]".data) rfl).2 ("[oops]".data) rfl rfl⟩⟩

/-- C2 counterexample: for an input beginning with a code fence whose fenced
segment is unparseable while the original raw text contains the parseable
bracketed array `[1]` after the closing fence, the parser returns the empty
sequence, not that array - because the fallback searches the fence-stripped
intermediate, not the original raw text. -/
theorem c2_counterexample :
    parse_model_output ("```\nnope\n```[1]".data) = some (J.arr []) ∧
    bracketMatch ("```\nnope\n```[1]".data) = some ("[1]".data) ∧
    loads ("[1]".data) = some (J.arr [J.num 1 0]) ∧
    J.arr ([] : List J) ≠ J.arr [J.num 1 0] := by
  refine ⟨rfl, rfl, rfl, ?_⟩
  intro h
  simp at h

/-- C2 amended: the regex fallback searches the fence-stripped text rather
than the original raw text: when the stripped text yields a bracket candidate
that parses, that value is the result, and when the stripped text has no
bracket pair the parser returns the empty array even if the original raw
text does contain one. -/
theorem c2_amended_theorem (t : List Char) (hl : loads (stripFences t) = none) :
    (∀ s v, bracketMatch (stripFences t) = some s → loads s = some v →
      parse_model_output t = some v) ∧
    (bracketMatch (stripFences t) = none → bracketMatch t ≠ none →
      parse_model_output t = some (J.arr [])) := by
  constructor
  · intro s v hb hs
    simp only [parse_model_output, hl, hb, hs]
  · intro hb _
    simp only [parse_model_output, hl, hb]

/-- C2 witness: on the fenced input with an array outside the fence, the
stripped text has no bracket pair while the raw text does, and the parser
returns the empty sequence. -/
theorem c2_witness :
    loads (stripFences ("```\nnope\n```[1]".data)) = none ∧
    bracketMatch (stripFences ("```\nnope\n```[1]".data)) = none ∧
    bracketMatch ("```\nnope\n```[1]".data) ≠ none ∧
    parse_model_output ("```\nnope\n```[1]".data) = some (J.arr []) := by
  refine ⟨rfl, rfl, ?hne, ?_⟩
  case hne =>
    intro h
    rw [show bracketMatch ("```\nnope\n```[1]".data) = some ("[1]".data) from rfl] at h
    exact Option.noConfusion h
  case _ =>
    exact (c2_amended_theorem ("```\nnope\n```[1]".data) rfl).2 rfl
      (by intro h
          rw [show bracketMatch ("```\nnope\n```[1]".data) = some ("[1]".data) from rfl] at h
          exact Option.noConfusion h)

/-- C4: a request body missing the `text` field or whose `text` value strips
to the empty string gets status 400 with an `error` field, and the external
completion call is never consulted (the response is identical under every
external outcome). -/
theorem c4_theorem (ext : ExtCall) (data : J)
    (h : pyFalsy data = true ∨ pyContains ("text".data) data = some false ∨
         (∃ s, pyGetItem data ("text".data) = some (J.str s) ∧ pyStrip s = [])) :
    (identify_components ext data).status = 400 ∧
    (∃ msg, jLookup (identify_components ext data).body ("error".data) = some (J.str msg)) ∧
    (∀ ext2, identify_components ext2 data = identify_components ext data) := by
  rcases h with h | h | h
  · simp only [identify_components, h, if_true]
    exact ⟨rfl, ⟨_, rfl⟩, fun ext2 => trivial⟩
  · by_cases hf : pyFalsy data = true
    · simp only [identify_components, hf, if_true]
      exact ⟨rfl, ⟨_, rfl⟩, fun ext2 => trivial⟩
    · rw [Bool.not_eq_true] at hf
      simp only [identify_components, hf, Bool.false_eq_true, if_false, h]
      exact ⟨rfl, ⟨_, rfl⟩, fun ext2 => trivial⟩
  · obtain ⟨s, hget, hstrip⟩ := h
    match data, hget with
    | J.obj kvs, hget =>
      have hfind : ∃ kv, kvs.find? (fun kv => kv.1 == ("text".data)) = some kv := by
        cases hfk : kvs.find? (fun kv => kv.1 == ("text".data)) with
        | none => rw [pyGetItem, hfk] at hget; exact Option.noConfusion hget
        | some kv => exact ⟨kv, rfl⟩
      obtain ⟨kv, hkv⟩ := hfind
      have hmem : kv ∈ kvs :=
        List.mem_of_find?_eq_some (p := fun (kv : List Char × J) => kv.1 == ("text".data)) hkv
      have hp : (kv.1 == ("text".data)) = true :=
        List.find?_some (p := fun (kv : List Char × J) => kv.1 == ("text".data)) hkv
      have hne : kvs ≠ [] := by
        intro hc; subst hc; simp at hkv
      have hfalsy : pyFalsy (J.obj kvs) = false := by
        simp only [pyFalsy, List.isEmpty_eq_true]
        simpa using hne
      have hcont : pyContains ("text".data) (J.obj kvs) = some true := by
        simp only [pyContains, Option.some_inj]
        exact List.any_eq_true.mpr ⟨kv, hmem, hp⟩
      simp only [identify_components, hfalsy, Bool.false_eq_true, if_false, hcont, hget,
        pyStripAttr, hstrip, List.isEmpty_nil, if_true]
      exact ⟨rfl, ⟨_, rfl⟩, fun ext2 => trivial⟩

/-- C4 witness: the empty-object body and a whitespace-only text both get
the 400 response with an error field, for an arbitrary external outcome. -/
theorem c4_witness :
    ((identify_components ExtCall.fail (J.obj [])).status = 400 ∧
      (∃ msg, jLookup (identify_components ExtCall.fail (J.obj [])).body ("error".data)
        = some (J.str msg)) ∧
      (∀ ext2, identify_components ext2 (J.obj []) =
        identify_components ExtCall.fail (J.obj []))) ∧
    ((identify_components ExtCall.fail
        (J.obj [(("text".data), J.str ("  ".data))])).status = 400 ∧
      (∃ msg, jLookup (identify_components ExtCall.fail
        (J.obj [(("text".data), J.str ("  ".data))])).body ("error".data)
        = some (J.str msg)) ∧
      (∀ ext2, identify_components ext2 (J.obj [(("text".data), J.str ("  ".data))]) =
        identify_components ExtCall.fail (J.obj [(("text".data), J.str ("  ".data))]))) :=
  ⟨c4_theorem ExtCall.fail (J.obj []) (Or.inl rfl),
   c4_theorem ExtCall.fail (J.obj [(("text".data), J.str ("  ".data))])
     (Or.inr (Or.inr ⟨("  ".data), rfl, rfl⟩))⟩

/-- After `d[k] = v` the lookup of `k` yields `v`. -/
theorem jLookup_setKey (kvs : List (List Char × J)) (k : List Char) (v : J) :
    jLookup (J.obj (setKey kvs k v)) k = some v := by
  unfold jLookup setKey
  by_cases hany : kvs.any (fun kv => kv.1 == k) = true
  · rw [if_pos hany]
    induction kvs with
    | nil => simp at hany
    | cons hd tl ih =>
      by_cases h1 : (hd.1 == k) = true
      · simp only [List.map_cons, if_pos h1, List.find?_cons]
        have : ((k, v).1 == k) = true := by simp
        rw [this]
        rfl
      · simp only [List.any_cons, h1, Bool.false_or] at hany
        simp only [List.map_cons, if_neg h1, List.find?_cons]
        rw [show (hd.1 == k) = false by simpa using h1]
        exact ih hany
  · rw [if_neg hany]
    rw [Bool.not_eq_true, List.any_eq_false] at hany
    induction kvs with
    | nil =>
      simp only [List.nil_append, List.find?_cons]
      have : ((k, v).1 == k) = true := by simp
      rw [this]
      rfl
    | cons hd tl ih =>
      have hhd : (hd.1 == k) = false := by
        simpa using hany hd (List.mem_cons_self hd tl)
      simp only [List.cons_append, List.find?_cons, hhd]
      exact ih (fun x hx => hany x (List.mem_cons_of_mem hd hx))

/-- Assigning ids to a list of dicts starting at index `n`: every element
succeeds and the element at offset `i` carries `comp_{n+i+1:03d}`. -/
theorem assignList_spec :
    ∀ (xs : List (List (List Char × J))) (n : Nat),
      ∃ ys, assignList n (xs.map J.obj) = some ys ∧ ys.length = xs.length ∧
        ∀ i (h : i < ys.length),
          jLookup (ys.get ⟨i, h⟩) ("component_id".data) = some (J.str (compId (n + i + 1))) := by
  intro xs
  induction xs with
  | nil =>
    intro n
    exact ⟨[], rfl, rfl, fun i h => absurd h (by simp)⟩
  | cons kv rest ih =>
    intro n
    obtain ⟨ys', h1, h2, h3⟩ := ih (n + 1)
    refine ⟨J.obj (setKey kv ("component_id".data) (J.str (compId (n + 1)))) :: ys', ?_, ?_, ?_⟩
    · simp only [List.map_cons, assignList, assignObjId, h1]
      rfl
    · simpa using h2
    · intro i h
      match i with
      | 0 =>
        simpa using jLookup_setKey kv ("component_id".data) (J.str (compId (n + 1)))
      | i + 1 =>
        have hi : i < ys'.length := by simpa using h
        have := h3 i hi
        simpa [show n + 1 + i + 1 = n + (i + 1) + 1 by omega] using this

/-- C3: on a successfully parsed array of N objects, the i-th record
(1-based, array order) receives `component_id` equal to `comp_{i:03d}`, the
ids within the response are pairwise distinct, and the assignment is a pure
function of the parsed array alone (no state crosses requests). -/
theorem c3_theorem (xs : List (List (List Char × J))) :
    ∃ ys, assignIds (J.arr (xs.map J.obj)) = some (J.arr ys) ∧
      ys.length = xs.length ∧
      (∀ i (h : i < ys.length),
        jLookup (ys.get ⟨i, h⟩) ("component_id".data) = some (J.str (compId (i + 1)))) ∧
      (∀ i j (hi : i < ys.length) (hj : j < ys.length), i ≠ j →
        jLookup (ys.get ⟨i, hi⟩) ("component_id".data) ≠
          jLookup (ys.get ⟨j, hj⟩) ("component_id".data)) := by
  obtain ⟨ys, h1, h2, h3⟩ := assignList_spec xs 0
  refine ⟨ys, ?_, h2, ?_, ?_⟩
  · simp only [assignIds, h1]
    rfl
  · intro i h
    simpa using h3 i h
  · intro i j hi hj hne heq
    have hii := h3 i hi
    have hjj := h3 j hj
    rw [hii, hjj] at heq
    have := compId_inj (J.str.inj (Option.some.inj heq))
    omega

/-- C3 witness: two concrete records receive comp_001 and comp_002. -/
theorem c3_witness :
    ∃ ys, assignIds (J.arr ([[(("t".data), J.null)], []].map J.obj)) = some (J.arr ys) ∧
      ys.length = ([[(("t".data), J.null)], []] : List (List (List Char × J))).length ∧
      (∀ i (h : i < ys.length),
        jLookup (ys.get ⟨i, h⟩) ("component_id".data) = some (J.str (compId (i + 1)))) ∧
      (∀ i j (hi : i < ys.length) (hj : j < ys.length), i ≠ j →
        jLookup (ys.get ⟨i, hi⟩) ("component_id".data) ≠
          jLookup (ys.get ⟨j, hj⟩) ("component_id".data)) :=
  c3_theorem [[(("t".data), J.null)], []]

/-- Characterization of Python `max(xs, key=f)` as folded by `maxByFirst`:
the result dominates the initial candidate and every listed element, and it
is either the initial candidate or the first listed element attaining the
maximum (everything strictly before it scores strictly less). -/
theorem maxByFirst_spec {α : Type} (f : α → Nat) :
    ∀ (l : List α) (best : α),
      f best ≤ f (maxByFirst f best l) ∧
      (∀ x ∈ l, f x ≤ f (maxByFirst f best l)) ∧
      (maxByFirst f best l = best ∨
        ∃ l1 l2, l = l1 ++ (maxByFirst f best l) :: l2 ∧
          f best < f (maxByFirst f best l) ∧
          ∀ x ∈ l1, f x < f (maxByFirst f best l)) := by
  intro l
  induction l with
  | nil =>
    intro best
    exact ⟨Nat.le_refl _, fun x hx => absurd hx (List.not_mem_nil x), Or.inl rfl⟩
  | cons x rest ih =>
    intro best
    by_cases hx : f x > f best
    · have hm : maxByFirst f best (x :: rest) = maxByFirst f x rest := by
        simp [maxByFirst, hx]
      obtain ⟨ih1, ih2, ih3⟩ := ih x
      rw [hm]
      refine ⟨Nat.le_trans (Nat.le_of_lt hx) ih1, ?_, ?_⟩
      · intro y hy
        rcases List.mem_cons.mp hy with hy | hy
        · rw [hy]; exact ih1
        · exact ih2 y hy
      · rcases ih3 with heq | ⟨l1, l2, hdec, hlt, hall⟩
        · refine Or.inr ⟨[], rest, ?_, ?_, ?_⟩
          · rw [heq]; rfl
          · rw [heq]; exact hx
          · intro y hy; exact absurd hy (List.not_mem_nil y)
        · refine Or.inr ⟨x :: l1, l2, ?_, ?_, ?_⟩
          · rw [List.cons_append, ← hdec]
          · exact Nat.lt_of_lt_of_le hx ih1
          · intro y hy
            rcases List.mem_cons.mp hy with hy | hy
            · rw [hy]; exact hlt
            · exact hall y hy
    · have hm : maxByFirst f best (x :: rest) = maxByFirst f best rest := by
        simp [maxByFirst, hx]
      obtain ⟨ih1, ih2, ih3⟩ := ih best
      rw [hm]
      have hxle : f x ≤ f best := Nat.le_of_not_lt hx
      refine ⟨ih1, ?_, ?_⟩
      · intro y hy
        rcases List.mem_cons.mp hy with hy | hy
        · rw [hy]; exact Nat.le_trans hxle ih1
        · exact ih2 y hy
      · rcases ih3 with heq | ⟨l1, l2, hdec, hlt, hall⟩
        · exact Or.inl heq
        · refine Or.inr ⟨x :: l1, l2, ?_, hlt, ?_⟩
          · rw [List.cons_append, ← hdec]
          · intro y hy
            rcases List.mem_cons.mp hy with hy | hy
            · rw [hy]; exact Nat.lt_of_le_of_lt hxle hlt
            · exact hall y hy

/-- Combined first-argmax facts for a nonempty candidate list, in the shape
used by the keyword classifier. -/
theorem classify_spec_gen (f : (List Char × List (List Char)) → Nat) (d : List Char)
    (p0 : List Char × List (List Char)) (rest : List (List Char × List (List Char))) :
    ((∀ q ∈ p0 :: rest, f q = 0) →
      (if f (maxByFirst f p0 rest) > 0 then (maxByFirst f p0 rest).1 else d) = d) ∧
    ((∃ q ∈ p0 :: rest, 0 < f q) →
      ∃ l1 p l2, p0 :: rest = l1 ++ p :: l2 ∧
        (if f (maxByFirst f p0 rest) > 0 then (maxByFirst f p0 rest).1 else d) = p.1 ∧
        (∀ q ∈ p0 :: rest, f q ≤ f p) ∧ (∀ q ∈ l1, f q < f p)) := by
  set M := maxByFirst f p0 rest with hM
  obtain ⟨hdom0, hdomL, hpos⟩ := maxByFirst_spec f rest p0
  rw [← hM] at hdom0 hdomL hpos
  have hmem : M ∈ p0 :: rest := by
    rcases hpos with heq | ⟨l1, l2, hdec, h2, h3⟩
    · rw [heq]; exact List.mem_cons_self _ _
    · rw [hdec]
      exact List.mem_cons_of_mem _ (List.mem_append_right _ (List.mem_cons_self _ _))
  have hdomAll : ∀ q ∈ p0 :: rest, f q ≤ f M := by
    intro q hq
    rcases List.mem_cons.mp hq with h | h
    · rw [h]; exact hdom0
    · exact hdomL q h
  constructor
  · intro hz
    have h0 : f M = 0 := hz _ hmem
    rw [if_neg (by omega)]
  · intro hex
    obtain ⟨q, hq, hqpos⟩ := hex
    have hbpos : f M > 0 := Nat.lt_of_lt_of_le hqpos (hdomAll q hq)
    rcases hpos with heq | ⟨l1, l2, hdec, hlt, hall⟩
    · refine ⟨[], p0, rest, rfl, ?_, ?_, ?_⟩
      · rw [if_pos hbpos, heq]
      · intro r hr; exact heq ▸ hdomAll r hr
      · intro r hr; exact absurd hr (List.not_mem_nil r)
    · refine ⟨p0 :: l1, M, l2, ?_, ?_, hdomAll, ?_⟩
      · rw [hdec]; rfl
      · rw [if_pos hbpos]
      · intro r hr
        rcases List.mem_cons.mp hr with h | h
        · rw [h]; exact hlt
        · exact hall r h

/-- C5: the Keyword Classifier returns the type whose keyword-substring count
over the lowercased text is maximal, ties broken by the first type reaching
the maximum in the enumeration order of COMPONENT_TYPES; when no keyword of
any type occurs it returns study_section. -/
theorem c5_theorem (text : List Char) :
    ((∀ p ∈ COMPONENT_TYPES, keywordScore p.2 (pyLower text) = 0) →
        classify_text text = ("study_section".data)) ∧
    ((∃ p ∈ COMPONENT_TYPES, 0 < keywordScore p.2 (pyLower text)) →
      ∃ l1 p l2, COMPONENT_TYPES = l1 ++ p :: l2 ∧
        classify_text text = p.1 ∧
        (∀ q ∈ COMPONENT_TYPES,
          keywordScore q.2 (pyLower text) ≤ keywordScore p.2 (pyLower text)) ∧
        (∀ q ∈ l1, keywordScore q.2 (pyLower text) < keywordScore p.2 (pyLower text))) := by
  have hgen := classify_spec_gen (fun q => keywordScore q.2 (pyLower text))
    ("study_section".data) COMPONENT_TYPES.headI COMPONENT_TYPES.tail
  beta_reduce at hgen
  have hred : (COMPONENT_TYPES.headI :: COMPONENT_TYPES.tail) = COMPONENT_TYPES := rfl
  rw [hred] at hgen
  have hc : classify_text text =
      (if keywordScore
            (maxByFirst (fun q => keywordScore q.2 (pyLower text))
              COMPONENT_TYPES.headI COMPONENT_TYPES.tail).2 (pyLower text) > 0
       then (maxByFirst (fun q => keywordScore q.2 (pyLower text))
              COMPONENT_TYPES.headI COMPONENT_TYPES.tail).1
       else ("study_section".data)) := rfl
  rw [← hc] at hgen
  exact hgen

/-- C5 witness: a text with drug keywords classifies to a type whose score
dominates all types, and a keyword-free text classifies to study_section. -/
theorem c5_witness :
    ((∀ p ∈ COMPONENT_TYPES, keywordScore p.2 (pyLower ("zzz qqq www".data)) = 0) ∧
      classify_text ("zzz qqq www".data) = ("study_section".data)) ∧
    ((∃ p ∈ COMPONENT_TYPES, 0 < keywordScore p.2 (pyLower ("The dose of the drug".data))) ∧
      ∃ l1 p l2, COMPONENT_TYPES = l1 ++ p :: l2 ∧
        classify_text ("The dose of the drug".data) = p.1 ∧
        (∀ q ∈ COMPONENT_TYPES, keywordScore q.2 (pyLower ("The dose of the drug".data)) ≤
          keywordScore p.2 (pyLower ("The dose of the drug".data))) ∧
        (∀ q ∈ l1, keywordScore q.2 (pyLower ("The dose of the drug".data)) <
          keywordScore p.2 (pyLower ("The dose of the drug".data)))) :=
  ⟨⟨by decide, (c5_theorem ("zzz qqq www".data)).1 (by decide)⟩,
   ⟨by decide, (c5_theorem ("The dose of the drug".data)).2 (by decide)⟩⟩

/-- A fixed confidence draw for concrete CSV evaluations. -/
def cfDraw : Nat → Int × Nat := fun _ => ((95 : Int), (2 : Nat))

/-- A row whose transcription is shorter than its description. -/
def rowPriority : CsvRow :=
  ⟨some (List.replicate 100 'a'), some (List.replicate 150 'b'), none, none, none⟩

/-- A row whose transcription contains a paragraph of exactly 50 characters
followed by one of 60 characters. -/
def rowFifty : CsvRow :=
  ⟨some (List.replicate 50 'c' ++ ("\n\n".data) ++ List.replicate 60 'd'),
   none, none, none, none⟩

/-- C8 counterexample, refuting two conjuncts of the claim at concrete rows:
(a) ingestion does not select the longest available text column - for a row
with a 100-character transcription and a 150-character description the single
record's text is the transcription; (b) a paragraph of exactly 50 characters
is dropped, not kept - for a row with a 50-character and a 60-character
paragraph only the 60-character paragraph yields a record. -/
theorem c8_counterexample :
    ((process_csv_row cfDraw rowPriority).map (List.map (fun c => jLookup c ("text".data)))
        = some [some (J.str (List.replicate 100 'a'))] ∧
      (some [some (J.str (List.replicate 100 'a'))] : Option (List (Option J)))
        ≠ some [some (J.str (List.replicate 150 'b'))]) ∧
    ((process_csv_row cfDraw rowFifty).map (List.map (fun c => jLookup c ("text".data)))
        = some [some (J.str (List.replicate 60 'd'))] ∧
      (some [some (J.str (List.replicate 60 'd'))] : Option (List (Option J)))
        ≠ some [some (J.str (List.replicate 50 'c')), some (J.str (List.replicate 60 'd'))]) := by
  refine ⟨⟨rfl, ?_⟩, ⟨rfl, ?_⟩⟩
  · intro h
    simp only [Option.some.injEq, List.cons.injEq, and_true] at h
    have hs := J.str.inj h
    have hlen : (List.replicate 100 'a' : List Char).length
        = (List.replicate 150 'b' : List Char).length := by rw [hs]
    simp at hlen
  · intro h
    simp only [Option.some.injEq, List.cons.injEq] at h
    exact List.cons_ne_nil _ _ h.2.symm

/-- Normalized form of the row-skip test. -/
theorem process_csv_row_eq (cf : Nat → Int × Nat) (r : CsvRow) :
    process_csv_row cf r =
      (if selectText r = [] ∨ (selectText r).length < 100 then none
       else some (csvComponentsGo r cf 0 ((keptParagraphs (selectText r)).take 5))) := by
  unfold process_csv_row
  by_cases h : selectText r = [] ∨ (selectText r).length < 100
  · rw [if_pos h, if_pos (by simpa using h)]
  · rw [if_neg h, if_neg ?hc]
    case hc =>
      intro hcontra
      exact h (by simpa using hcontra)

/-- The component list is as long as the paragraph list it is built from. -/
theorem csvComponentsGo_length (r : CsvRow) (cf : Nat → Int × Nat) :
    ∀ (ps : List (List Char)) (i0 : Nat), (csvComponentsGo r cf i0 ps).length = ps.length := by
  intro ps
  induction ps with
  | nil => intro i0; rfl
  | cons p rest ih => intro i0; simp [csvComponentsGo, ih]

/-- The component at offset `i` is built from the paragraph at offset `i`
with running index `i0 + i`. -/
theorem csvComponentsGo_getD (r : CsvRow) (cf : Nat → Int × Nat) :
    ∀ (ps : List (List Char)) (i0 i : Nat), i < ps.length →
      (csvComponentsGo r cf i0 ps).getD i J.null = csvComponent r cf (i0 + i) (ps.getD i []) := by
  intro ps
  induction ps with
  | nil => intro i0 i h; simp at h
  | cons p rest ih =>
    intro i0 i h
    match i with
    | 0 => simp [csvComponentsGo]
    | i + 1 =>
      have hi : i < rest.length := by simpa using h
      simp only [csvComponentsGo, List.getD_cons_succ]
      rw [ih (i0 + 1) i hi]
      congr 1
      omega

/-- Text field of one CSV component: the paragraph truncated to 500. -/
theorem csvComponent_text (r : CsvRow) (cf : Nat → Int × Nat) (i : Nat) (p : List Char) :
    jLookup (csvComponent r cf i p) ("text".data) = some (J.str (p.take 500)) := rfl

/-- Title field of one CSV component. -/
theorem csvComponent_title (r : CsvRow) (cf : Nat → Int × Nat) (i : Nat) (p : List Char) :
    jLookup (csvComponent r cf i p) ("title".data)
      = some (J.str (pyStrip (selectSpecialty r ++ (" - Section ".data) ++ natDigits (i + 1)))) :=
  rfl

/-- Type field of one CSV component. -/
theorem csvComponent_type (r : CsvRow) (cf : Nat → Int × Nat) (i : Nat) (p : List Char) :
    jLookup (csvComponent r cf i p) ("type".data) = some (J.str (classify_text p)) := rfl

/-- C8 amended: per CSV row, ingestion selects the FIRST NON-EMPTY of the
candidate text columns in the priority order transcription, description,
text (not the longest); skips the row iff the selected text is empty or
under 100 characters; splits on blank-line boundaries and keeps exactly the
stripped paragraphs STRICTLY longer than 50 characters (a 50-character
paragraph is dropped); falls back to the first 1000 characters when no
paragraph survives; labels at most the first 5 surviving paragraphs, each
record's text truncated to 500 characters with a title combining the
specialty field and a 1-based section index. -/
theorem c8_amended_theorem (cf : Nat → Int × Nat) (r : CsvRow) :
    (process_csv_row cf r = none ↔ selectText r = [] ∨ (selectText r).length < 100) ∧
    (∀ tt, r.transcription = some tt → tt ≠ [] → selectText r = tt) ∧
    (∀ comps, process_csv_row cf r = some comps →
      comps.length = min 5 (keptParagraphs (selectText r)).length ∧
      ∀ i, i < comps.length →
        jLookup (comps.getD i J.null) ("text".data)
          = some (J.str ((((keptParagraphs (selectText r)).take 5).getD i []).take 500)) ∧
        jLookup (comps.getD i J.null) ("title".data)
          = some (J.str (pyStrip (selectSpecialty r ++ (" - Section ".data) ++ natDigits (i + 1)))) ∧
        jLookup (comps.getD i J.null) ("type".data)
          = some (J.str (classify_text (((keptParagraphs (selectText r)).take 5).getD i [])))) := by
  refine ⟨?_, ?_, ?_⟩
  · rw [process_csv_row_eq]
    by_cases h : selectText r = [] ∨ (selectText r).length < 100
    · rw [if_pos h]; simpa using h
    · rw [if_neg h]
      constructor
      · intro hc; exact Option.noConfusion hc
      · intro hc; exact absurd hc h
  · intro tt htt hne
    have hE : tt.isEmpty = false := by simpa using hne
    unfold selectText rowGet pyOr
    rw [htt]
    simp [hE]
  · intro comps hcomps
    rw [process_csv_row_eq] at hcomps
    by_cases h : selectText r = [] ∨ (selectText r).length < 100
    · rw [if_pos h] at hcomps; exact Option.noConfusion hcomps
    · rw [if_neg h] at hcomps
      have hc : comps = csvComponentsGo r cf 0 ((keptParagraphs (selectText r)).take 5) :=
        (Option.some.inj hcomps).symm
      subst hc
      have hlen : (csvComponentsGo r cf 0 ((keptParagraphs (selectText r)).take 5)).length
          = min 5 (keptParagraphs (selectText r)).length := by
        rw [csvComponentsGo_length, List.length_take]
      refine ⟨hlen, ?_⟩
      intro i hi
      have hi' : i < ((keptParagraphs (selectText r)).take 5).length := by
        rw [csvComponentsGo_length] at hi; exact hi
      rw [csvComponentsGo_getD r cf _ 0 i hi']
      simp only [Nat.zero_add]
      exact ⟨csvComponent_text r cf i _, csvComponent_title r cf i _, csvComponent_type r cf i _⟩

/-- C8 witness: on the row with a 50- and a 60-character paragraph, the row
is not skipped, the transcription column is selected, exactly one record is
produced, and its fields are the projections of the surviving paragraph. -/
theorem c8_witness :
    (process_csv_row cfDraw rowFifty = none ↔
      selectText rowFifty = [] ∨ (selectText rowFifty).length < 100) ∧
    (selectText rowFifty = (List.replicate 50 'c' ++ ("\n\n".data) ++ List.replicate 60 'd')) ∧
    ((process_csv_row cfDraw rowFifty).getD [] =
        (process_csv_row cfDraw rowFifty).getD [] →
      ((process_csv_row cfDraw rowFifty).getD []).length
          = min 5 (keptParagraphs (selectText rowFifty)).length ∧
      ∀ i, i < ((process_csv_row cfDraw rowFifty).getD []).length →
        jLookup (((process_csv_row cfDraw rowFifty).getD []).getD i J.null) ("text".data)
          = some (J.str ((((keptParagraphs (selectText rowFifty)).take 5).getD i []).take 500)) ∧
        jLookup (((process_csv_row cfDraw rowFifty).getD []).getD i J.null) ("title".data)
          = some (J.str (pyStrip
              (selectSpecialty rowFifty ++ (" - Section ".data) ++ natDigits (i + 1)))) ∧
        jLookup (((process_csv_row cfDraw rowFifty).getD []).getD i J.null) ("type".data)
          = some (J.str
              (classify_text (((keptParagraphs (selectText rowFifty)).take 5).getD i [])))) :=
  ⟨(c8_amended_theorem cfDraw rowFifty).1,
   (c8_amended_theorem cfDraw rowFifty).2.1
     (List.replicate 50 'c' ++ ("\n\n".data) ++ List.replicate 60 'd') rfl (by decide),
   fun _ => (c8_amended_theorem cfDraw rowFifty).2.2
     ((process_csv_row cfDraw rowFifty).getD []) rfl⟩

-- Round-trip infrastructure: strings ------------------------------------------

/-- Valid scalar range of a character. -/
theorem char_valid_range (c : Char) :
    c.toNat < 55296 ∨ (57343 < c.toNat ∧ c.toNat < 1114112) := by
  rcases c.valid with h | ⟨h1, h2⟩
  · left; exact h
  · right; exact ⟨h1, h2⟩

/-- Hex digit characters decode back to their value. -/
theorem decodeHexDig_hexDigChar (d : Nat) (h : d < 16) :
    decodeHexDig (hexDigChar d) = some d := by
  interval_cases d <;> rfl

/-- Four emitted hex digits decode back to the encoded value. -/
theorem decodeHex4_hex4 (n : Nat) (h : n < 65536) (rest : List Char) :
    decodeHex4 (hex4 n ++ rest) = some (n, rest) := by
  have h1 : n / 4096 % 16 < 16 := Nat.mod_lt _ (by norm_num)
  have h2 : n / 256 % 16 < 16 := Nat.mod_lt _ (by norm_num)
  have h3 : n / 16 % 16 < 16 := Nat.mod_lt _ (by norm_num)
  have h4 : n % 16 < 16 := Nat.mod_lt _ (by norm_num)
  simp only [hex4, List.cons_append, List.nil_append, decodeHex4,
    decodeHexDig_hexDigChar _ h1, decodeHexDig_hexDigChar _ h2,
    decodeHexDig_hexDigChar _ h3, decodeHexDig_hexDigChar _ h4]
  congr 1
  congr 1
  omega

/-- The encoding of one character is never empty. -/
theorem encChar_ne_nil (c : Char) : 1 ≤ (encChar c).length := by
  unfold encChar
  repeat' split
  all_goals simp [hex4]

/-- The encoded string body is at least as long as the string. -/
theorem encStr_length_ge (s : List Char) : s.length ≤ (encStr s).length := by
  induction s with
  | nil => simp [encStr]
  | cons c s' ih =>
    have h := encChar_ne_nil c
    simp only [encStr, List.map_cons, List.flatten_cons, List.length_append, List.length_cons]
    simp only [encStr] at ih
    omega

/-- Parsing an encoded string body (followed by the closing quote) returns
the original string and the remainder. -/
theorem parseStr_enc :
    ∀ (s : List Char) (fuel : Nat) (rest : List Char), s.length < fuel →
      parseStr fuel (encStr s ++ '"' :: rest) = some (s, rest) := by
  intro s
  induction s with
  | nil =>
    intro fuel rest h
    cases fuel with
    | zero => omega
    | succ f => rfl
  | cons c s' ih =>
    intro fuel rest h
    cases fuel with
    | zero => omega
    | succ fuel =>
      have hs' : s'.length < fuel := by
        simp only [List.length_cons] at h
        omega
      have hrec := ih fuel rest hs'
      have henc : encStr (c :: s') ++ '"' :: rest
          = encChar c ++ (encStr s' ++ '"' :: rest) := by
        simp [encStr]
      rw [henc]
      by_cases h1 : c = '"'
      · subst h1
        simp [parseStr, hrec]
      by_cases h2 : c = '\\'
      · subst h2
        simp [parseStr, hrec]
      by_cases h3 : c = '\n'
      · subst h3
        simp [parseStr, hrec]
      by_cases h4 : c = '\r'
      · subst h4
        simp [parseStr, hrec]
      by_cases h5 : c = '\t'
      · subst h5
        simp [parseStr, hrec]
      by_cases h6 : c.toNat = 8
      · have he : encChar c = ['\\', 'b'] := by
          unfold encChar
          rw [if_neg h1, if_neg h2, if_neg h3, if_neg h4, if_neg h5, if_pos h6]
        have hc8 : Char.ofNat 8 = c := by rw [← h6, Char.ofNat_toNat]
        rw [he]
        simp [parseStr, hrec]
        exact hc8
      by_cases h7 : c.toNat = 12
      · have he : encChar c = ['\\', 'f'] := by
          unfold encChar
          rw [if_neg h1, if_neg h2, if_neg h3, if_neg h4, if_neg h5, if_neg h6, if_pos h7]
        have hc12 : Char.ofNat 12 = c := by rw [← h7, Char.ofNat_toNat]
        rw [he]
        simp [parseStr, hrec]
        exact hc12
      by_cases h8 : 32 ≤ c.toNat ∧ c.toNat ≤ 126
      · have he : encChar c = [c] := by
          unfold encChar
          rw [if_neg h1, if_neg h2, if_neg h3, if_neg h4, if_neg h5, if_neg h6, if_neg h7,
            if_pos h8]
        have h32 : ¬(c.toNat < 32) := by omega
        rw [he]
        simp [parseStr, hrec, h1, h2, h32]
      by_cases h9 : c.toNat < 65536
      · have he : encChar c = '\\' :: 'u' :: hex4 c.toNat := by
          unfold encChar
          rw [if_neg h1, if_neg h2, if_neg h3, if_neg h4, if_neg h5, if_neg h6, if_neg h7,
            if_neg h8, if_pos h9]
        have hns : ¬(55296 ≤ c.toNat ∧ c.toNat ≤ 56319) := by
          rcases char_valid_range c with hv | hv <;> omega
        rw [he]
        simp [parseStr, List.append_assoc, decodeHex4_hex4 c.toNat h9, hns, hrec,
          Char.ofNat_toNat]
      · have hv : 57343 < c.toNat ∧ c.toNat < 1114112 := by
          rcases char_valid_range c with hv | hv
          · omega
          · exact hv
        have he : encChar c =
            ('\\' :: 'u' :: hex4 (55296 + (c.toNat - 65536) / 1024)) ++
              ('\\' :: 'u' :: hex4 (56320 + (c.toNat - 65536) % 1024)) := by
          unfold encChar
          rw [if_neg h1, if_neg h2, if_neg h3, if_neg h4, if_neg h5, if_neg h6, if_neg h7,
            if_neg h8, if_neg h9]
        have hdiv : (c.toNat - 65536) / 1024 ≤ 1023 := by omega
        have hmod : (c.toNat - 65536) % 1024 ≤ 1023 := by
          have := Nat.mod_lt (c.toNat - 65536) (y := 1024) (by norm_num)
          omega
        have hhi_lt : 55296 + (c.toNat - 65536) / 1024 < 65536 := by omega
        have hlo_lt : 56320 + (c.toNat - 65536) % 1024 < 65536 := by omega
        have hhi_range : 55296 ≤ 55296 + (c.toNat - 65536) / 1024 ∧
            55296 + (c.toNat - 65536) / 1024 ≤ 56319 := by omega
        have hlo_range : 56320 ≤ 56320 + (c.toNat - 65536) % 1024 ∧
            56320 + (c.toNat - 65536) % 1024 ≤ 57343 := by omega
        have hchar : Char.ofNat (65536 + (c.toNat - 65536) / 1024 * 1024 +
            (c.toNat - 65536) % 1024) = c := by
          have harith : 65536 + (c.toNat - 65536) / 1024 * 1024 +
              (c.toNat - 65536) % 1024 = c.toNat := by
            have hdm := Nat.div_add_mod (c.toNat - 65536) 1024
            omega
          rw [harith, Char.ofNat_toNat]
        rw [he]
        simp only [List.cons_append, List.append_assoc]
        rw [parseStr]
        simp only [reduceIte]
        simp only [decodeHex4_hex4 _ hhi_lt]
        rw [if_pos hhi_range]
        simp only [decodeHex4_hex4 _ hlo_lt]
        rw [if_pos hlo_range]
        rw [hrec]
        simp [hchar]

-- Round-trip infrastructure: numbers ------------------------------------------

/-- Every character produced by the digit printer is a digit. -/
theorem natDigitsGo_digits : ∀ fuel n c, c ∈ natDigitsGo fuel n → isDigit c = true := by
  intro fuel
  induction fuel with
  | zero => intro n c h; simp [natDigitsGo] at h
  | succ f ih =>
    intro n c h
    by_cases hn : n < 10
    · simp only [natDigitsGo, if_pos hn, List.mem_singleton] at h
      rw [h]; exact isDigit_digitChar n hn
    · simp only [natDigitsGo, if_neg hn, List.mem_append, List.mem_singleton] at h
      rcases h with h | h
      · exact ih (n / 10) c h
      · rw [h]; exact isDigit_digitChar (n % 10) (Nat.mod_lt _ (by norm_num))

/-- The digit printer yields a nonempty string for positive fuel. -/
theorem natDigitsGo_ne_nil (fuel n : Nat) (h : 0 < fuel) : natDigitsGo fuel n ≠ [] := by
  cases fuel with
  | zero => omega
  | succ f =>
    by_cases hn : n < 10
    · simp [natDigitsGo, hn]
    · simp [natDigitsGo, hn]

/-- For a nonzero value the digit string starts with a nonzero digit. -/
theorem natDigitsGo_shape :
    ∀ fuel n, n < 10 ^ fuel → n ≠ 0 →
      ∃ c ds, natDigitsGo fuel n = c :: ds ∧ c ≠ '0' := by
  intro fuel
  induction fuel with
  | zero => intro n h hz; omega
  | succ f ih =>
    intro n h hz
    by_cases hn : n < 10
    · refine ⟨digitChar n, [], by simp [natDigitsGo, hn], ?_⟩
      intro hc
      have := congrArg Char.toNat hc
      rw [digitChar_lt_d800 n hn] at this
      have h0 : ('0').toNat = 48 := rfl
      omega
    · have hdiv10 : n / 10 ≠ 0 := by omega
      have hdivlt : n / 10 < 10 ^ f := by
        apply Nat.div_lt_of_lt_mul
        rw [← pow_succ']; exact h
      obtain ⟨c, ds, hshape, hcz⟩ := ih (n / 10) hdivlt hdiv10
      exact ⟨c, ds ++ [digitChar (n % 10)], by simp [natDigitsGo, hn, hshape], hcz⟩

/-- Digit-count bound: a value below `10 ^ k` prints in at most `k` digits. -/
theorem natDigitsGo_length :
    ∀ fuel n k, n < 10 ^ k → 1 ≤ k → (natDigitsGo fuel n).length ≤ k := by
  intro fuel
  induction fuel with
  | zero => intro n k h hk; simp [natDigitsGo]
  | succ f ih =>
    intro n k h hk
    by_cases hn : n < 10
    · simp [natDigitsGo, hn, hk]
    · have hk2 : 2 ≤ k := by
        by_contra hcon
        have hk1 : k = 1 := by omega
        subst hk1
        simp at h
        omega
      have hdivlt : n / 10 < 10 ^ (k - 1) := by
        apply Nat.div_lt_of_lt_mul
        have : 10 * 10 ^ (k - 1) = 10 ^ k := by
          rw [← pow_succ']
          congr 1
          omega
        omega
      have := ih (n / 10) (k - 1) hdivlt (by omega)
      simp only [natDigitsGo, if_neg hn, List.length_append, List.length_cons,
        List.length_nil]
      omega

/-- The string boundary after a serialized number: the next character, if
any, is not a digit, a dot, or an exponent marker. -/
def numBoundary : List Char → Prop
  | [] => True
  | c :: _ => isDigit c = false ∧ c ≠ '.' ∧ c ≠ 'e' ∧ c ≠ 'E'

/-- Boundary head is not a digit. -/
theorem numBoundary_headNotDigit :
    ∀ l, numBoundary l → (l = [] ∨ ∃ c cs, l = c :: cs ∧ isDigit c = false) := by
  intro l h
  cases l with
  | nil => exact Or.inl rfl
  | cons c cs => exact Or.inr ⟨c, cs, rfl, h.1⟩

/-- takeWhile/dropWhile over a run of digits followed by a non-digit. -/
theorem digits_span :
    ∀ (ds rest : List Char), (∀ c ∈ ds, isDigit c = true) →
      (rest = [] ∨ ∃ c cs, rest = c :: cs ∧ isDigit c = false) →
      (ds ++ rest).takeWhile isDigit = ds ∧ (ds ++ rest).dropWhile isDigit = rest := by
  intro ds
  induction ds with
  | nil =>
    intro rest hds hrest
    rcases hrest with h | ⟨c, cs, hr, hc⟩
    · subst h; exact ⟨rfl, rfl⟩
    · subst hr
      constructor
      · simp [List.takeWhile_cons, hc]
      · simp [List.dropWhile_cons, hc]
  | cons d ds' ih =>
    intro rest hds hrest
    have hd : isDigit d = true := hds d (List.mem_cons_self d ds')
    have hds' : ∀ c ∈ ds', isDigit c = true := fun c hc => hds c (List.mem_cons_of_mem d hc)
    obtain ⟨ih1, ih2⟩ := ih rest hds' hrest
    constructor
    · simp [List.takeWhile_cons, hd, ih1]
    · simp [List.dropWhile_cons, hd, ih2]

/-- The integer-part grammar accepts exactly a canonical digit string. -/
theorem parseIntDigits_natDigits (a : Nat) (rest : List Char)
    (hrest : rest = [] ∨ ∃ c cs, rest = c :: cs ∧ isDigit c = false) :
    parseIntDigits (natDigits a ++ rest) = some (natDigits a, rest) := by
  by_cases ha : a = 0
  · subst ha
    rw [show natDigits 0 = ['0'] from rfl]
    rfl
  · obtain ⟨c, ds, hshape, hcz⟩ := natDigitsGo_shape (a + 1) a
      (by
        calc a < a + 1 := Nat.lt_succ_self a
        _ ≤ 10 ^ (a + 1) := Nat.le_of_lt (Nat.lt_pow_self (by norm_num) (a + 1))) ha
    have hdigits : ∀ x ∈ natDigits a, isDigit x = true :=
      fun x hx => natDigitsGo_digits (a + 1) a x hx
    rw [show natDigits a = c :: ds from hshape] at hdigits ⊢
    have hcd : isDigit c = true := hdigits c (List.mem_cons_self c ds)
    have hdsd : ∀ x ∈ ds, isDigit x = true :=
      fun x hx => hdigits x (List.mem_cons_of_mem c hx)
    obtain ⟨hspan1, hspan2⟩ := digits_span ds rest hdsd hrest
    simp only [List.cons_append, parseIntDigits, if_neg hcz, if_pos hcd, hspan1, hspan2]

/-- The exponent parser consumes nothing at a number boundary. -/
theorem parseExp_boundary (l : List Char) (h : numBoundary l) : parseExp l = (0, l) := by
  cases l with
  | nil => rfl
  | cons c cs =>
    obtain ⟨h1, h2, h3, h4⟩ := h
    simp only [parseExp]
    rw [if_neg (by simp [h3, h4])]

/-- Folding the digit value from an arbitrary accumulator. -/
theorem digitsVal_acc :
    ∀ (ds : List Char) (acc : Nat),
      ds.foldl (fun acc c => acc * 10 + digitVal c) acc
        = acc * 10 ^ ds.length + digitsVal ds := by
  intro ds
  induction ds with
  | nil => intro acc; simp [digitsVal]
  | cons c ds' ih =>
    intro acc
    have h1 := ih (acc * 10 + digitVal c)
    have h2 := ih (0 * 10 + digitVal c)
    simp only [List.foldl_cons, List.length_cons, digitsVal] at h1 h2 ⊢
    rw [h1, h2]
    ring

/-- Digit value of an appended run. -/
theorem digitsVal_append (xs ys : List Char) :
    digitsVal (xs ++ ys) = digitsVal xs * 10 ^ ys.length + digitsVal ys := by
  simp only [digitsVal, List.foldl_append]
  exact digitsVal_acc ys _

/-- Every character of a zero-padded digit string is a digit. -/
theorem padZeros_digits (k : Nat) (ds : List Char) (h : ∀ c ∈ ds, isDigit c = true) :
    ∀ c ∈ padZeros k ds, isDigit c = true := by
  intro c hc
  simp only [padZeros, List.mem_append, List.mem_replicate] at hc
  rcases hc with ⟨h1, h2⟩ | hc
  · rw [h2]; rfl
  · exact h c hc

/-- Length of the zero padding. -/
theorem padZeros_length (k : Nat) (ds : List Char) (h : ds.length ≤ k) :
    (padZeros k ds).length = k := by
  simp only [padZeros, List.length_append, List.length_replicate]
  omega

/-- Digit value is unchanged by zero padding. -/
theorem digitsVal_padZeros (k : Nat) (ds : List Char) :
    digitsVal (padZeros k ds) = digitsVal ds :=
  digitsVal_zeros_append _ ds


/-- A canonical digit string is a nonempty list of digit characters. -/
theorem natDigits_cons (a : Nat) :
    ∃ c ds, natDigits a = c :: ds ∧ isDigit c = true ∧ (∀ x ∈ ds, isDigit x = true) := by
  have hdig : ∀ x ∈ natDigits a, isDigit x = true :=
    fun x hx => natDigitsGo_digits (a + 1) a x hx
  cases hnd : natDigits a with
  | nil => exact absurd hnd (natDigitsGo_ne_nil _ _ (by omega))
  | cons c cs =>
    rw [hnd] at hdig
    exact ⟨c, cs, rfl, hdig c (List.mem_cons_self c cs),
      fun x hx => hdig x (List.mem_cons_of_mem c hx)⟩

/-- The sign parser does not fire on a digit. -/
theorem parseSign_digit (c : Char) (t : List Char) (h : isDigit c = true) :
    parseSign (c :: t) = (false, c :: t) := by
  have hcm : c ≠ '-' := by
    intro hc
    rw [hc] at h
    simp [isDigit] at h
  simp [parseSign, hcm]

/-- The fraction parser consumes nothing at a number boundary. -/
theorem parseFrac_boundary (r : List Char) (h : numBoundary r) : parseFrac r = ([], r) := by
  cases r with
  | nil => rfl
  | cons c rr => simp [parseFrac, h.2.1]

/-- The fraction parser consumes a dot followed by a run of digits. -/
theorem parseFrac_padded (fs rest : List Char) (hne : fs ≠ [])
    (hdig : ∀ c ∈ fs, isDigit c = true)
    (hrest : rest = [] ∨ ∃ c cs, rest = c :: cs ∧ isDigit c = false) :
    parseFrac ('.' :: (fs ++ rest)) = (fs, rest) := by
  obtain ⟨hspan1, hspan2⟩ := digits_span fs rest hdig hrest
  simp only [parseFrac, reduceIte, hspan1, hspan2]
  rw [if_neg ?hc]
  case hc =>
    simp only [List.isEmpty_eq_true]
    exact hne

/-- Assembled number parse from parses of the sign, integer part, fraction
and an exponent-free boundary. -/
theorem parseNum_split (l : List Char) (neg : Bool) (t : List Char)
    (hsign : parseSign l = (neg, t))
    (ids r1 : List Char) (hint : parseIntDigits t = some (ids, r1))
    (fs r2 : List Char) (hfrac : parseFrac r1 = (fs, r2))
    (hexp : numBoundary r2) :
    parseNum l = some
      ((if neg then -(digitsVal (ids ++ fs) : Int) else (digitsVal (ids ++ fs) : Int)),
        0 - (fs.length : Int), r2) := by
  rw [parseNum]
  simp only [hsign, hint, hfrac, parseExp_boundary r2 hexp]

/-- Parsing a serialized fixed-point decimal returns the mantissa, exponent
and remainder. -/
theorem parseNum_dumpNum (m : Int) (e : Int) (rest : List Char)
    (he : e ≤ 0) (hrest : numBoundary rest) :
    parseNum (dumpNum m e ++ rest) = some (m, e, rest) := by
  have hhead := numBoundary_headNotDigit rest hrest
  by_cases hs : (-e).toNat = 0
  · have he0 : e = 0 := by omega
    subst he0
    have hd : dumpNum m 0 ++ rest
        = (if m < 0 then ['-'] else []) ++ (natDigits m.natAbs ++ rest) := by
      simp [dumpNum]
    rw [hd]
    by_cases hm : m < 0
    · rw [if_pos hm]
      have hsign : parseSign (['-'] ++ (natDigits m.natAbs ++ rest))
          = (true, natDigits m.natAbs ++ rest) := by
        simp [parseSign]
      rw [parseNum_split _ true _ hsign
        (natDigits m.natAbs) rest (parseIntDigits_natDigits m.natAbs rest hhead)
        [] rest (parseFrac_boundary rest hrest) hrest]
      simp only [Option.some.injEq, Prod.mk.injEq, List.append_nil, List.length_nil,
        digitsVal_natDigits, Nat.cast_zero, if_true]
      refine ⟨by omega, by omega, trivial⟩
    · rw [if_neg hm]
      obtain ⟨c, ds, hnd, hcd, hdsd⟩ := natDigits_cons m.natAbs
      have hsign : parseSign ([] ++ (natDigits m.natAbs ++ rest))
          = (false, natDigits m.natAbs ++ rest) := by
        rw [List.nil_append, hnd, List.cons_append]
        exact parseSign_digit c (ds ++ rest) hcd
      rw [parseNum_split _ false _ hsign
        (natDigits m.natAbs) rest (parseIntDigits_natDigits m.natAbs rest hhead)
        [] rest (parseFrac_boundary rest hrest) hrest]
      simp only [Option.some.injEq, Prod.mk.injEq, List.append_nil, List.length_nil,
        digitsVal_natDigits, Nat.cast_zero, Bool.false_eq_true, if_false]
      refine ⟨by omega, by omega, trivial⟩
  · have hs1 : 1 ≤ (-e).toNat := by omega
    have hmod_lt : m.natAbs % 10 ^ (-e).toNat < 10 ^ (-e).toNat :=
      Nat.mod_lt _ (by positivity)
    have hflen : (natDigits (m.natAbs % 10 ^ (-e).toNat)).length ≤ (-e).toNat :=
      natDigitsGo_length _ _ _ hmod_lt hs1
    have hfs_len : (padZeros (-e).toNat (natDigits (m.natAbs % 10 ^ (-e).toNat))).length
        = (-e).toNat := padZeros_length _ _ hflen
    have hfs_ne : padZeros (-e).toNat (natDigits (m.natAbs % 10 ^ (-e).toNat)) ≠ [] := by
      intro hc
      rw [hc] at hfs_len
      simp only [List.length_nil] at hfs_len
      omega
    have hfs_dig : ∀ x ∈ padZeros (-e).toNat (natDigits (m.natAbs % 10 ^ (-e).toNat)),
        isDigit x = true := by
      apply padZeros_digits
      intro x hx
      exact natDigitsGo_digits _ _ x hx
    have hd : dumpNum m e ++ rest
        = (if m < 0 then ['-'] else []) ++ (natDigits (m.natAbs / 10 ^ (-e).toNat) ++
            ('.' :: (padZeros (-e).toNat (natDigits (m.natAbs % 10 ^ (-e).toNat)) ++ rest))) := by
      simp [dumpNum, hs, List.append_assoc]
    rw [hd]
    have hint := parseIntDigits_natDigits (m.natAbs / 10 ^ (-e).toNat)
      ('.' :: (padZeros (-e).toNat (natDigits (m.natAbs % 10 ^ (-e).toNat)) ++ rest))
      (Or.inr ⟨'.', _, rfl, rfl⟩)
    have hfrac := parseFrac_padded
      (padZeros (-e).toNat (natDigits (m.natAbs % 10 ^ (-e).toNat))) rest hfs_ne hfs_dig hhead
    have hval : digitsVal (natDigits (m.natAbs / 10 ^ (-e).toNat) ++
        padZeros (-e).toNat (natDigits (m.natAbs % 10 ^ (-e).toNat))) = m.natAbs := by
      rw [digitsVal_append, hfs_len, digitsVal_padZeros, digitsVal_natDigits,
        digitsVal_natDigits]
      have hdm := Nat.div_add_mod m.natAbs (10 ^ (-e).toNat)
      rw [Nat.mul_comm] at hdm
      exact hdm
    by_cases hm : m < 0
    · rw [if_pos hm]
      have hsign : parseSign (['-'] ++ (natDigits (m.natAbs / 10 ^ (-e).toNat) ++
            ('.' :: (padZeros (-e).toNat (natDigits (m.natAbs % 10 ^ (-e).toNat)) ++ rest))))
          = (true, natDigits (m.natAbs / 10 ^ (-e).toNat) ++
            ('.' :: (padZeros (-e).toNat (natDigits (m.natAbs % 10 ^ (-e).toNat)) ++ rest))) := by
        simp [parseSign]
      rw [parseNum_split _ true _ hsign _ _ hint _ _ hfrac hrest]
      simp only [Option.some.injEq, Prod.mk.injEq, hval, hfs_len, if_true]
      refine ⟨by omega, by omega, trivial⟩
    · rw [if_neg hm]
      obtain ⟨c, ds, hnd, hcd, hdsd⟩ := natDigits_cons (m.natAbs / 10 ^ (-e).toNat)
      have hsign : parseSign ([] ++ (natDigits (m.natAbs / 10 ^ (-e).toNat) ++
            ('.' :: (padZeros (-e).toNat (natDigits (m.natAbs % 10 ^ (-e).toNat)) ++ rest))))
          = (false, natDigits (m.natAbs / 10 ^ (-e).toNat) ++
            ('.' :: (padZeros (-e).toNat (natDigits (m.natAbs % 10 ^ (-e).toNat)) ++ rest))) := by
        rw [List.nil_append, hnd, List.cons_append]
        exact parseSign_digit c _ hcd
      rw [parseNum_split _ false _ hsign _ _ hint _ _ hfrac hrest]
      simp only [Option.some.injEq, Prod.mk.injEq, hval, hfs_len, Bool.false_eq_true,
        if_false]
      refine ⟨by omega, by omega, trivial⟩

-- Round-trip infrastructure: dispatch facts -----------------------------------

/-- Skipping whitespace is the identity on a non-whitespace head. -/
theorem skipWs_cons (c : Char) (l : List Char) (h : isJsonWs c = false) :
    skipWs (c :: l) = c :: l := by
  simp [skipWs, List.dropWhile_cons, h]

/-- Skipping whitespace ignores a leading space. -/
theorem skipWs_space (l : List Char) : skipWs (' ' :: l) = skipWs l := by
  simp [skipWs, List.dropWhile_cons, isJsonWs]

/-- A list is a prefix of itself followed by anything. -/
theorem isPrefixOf_append_self (l r : List Char) : l.isPrefixOf (l ++ r) = true := by
  induction l with
  | nil => simp
  | cons c cs ih => simpa [List.isPrefixOf] using ih

/-- Character classification facts for a digit. -/
theorem digit_head_facts (c : Char) (h : isDigit c = true) :
    isJsonWs c = false ∧ c ≠ ']' ∧ c ≠ rbrace ∧ c ≠ lbrace ∧ c ≠ '[' ∧ c ≠ '"' ∧
      c ≠ 't' ∧ c ≠ 'f' ∧ c ≠ 'n' := by
  have hb : 48 ≤ c.toNat ∧ c.toNat ≤ 57 := by
    simpa [isDigit] using h
  have hne : ∀ x : Char, x.toNat < 48 ∨ 57 < x.toNat → c ≠ x := by
    intro x hx hc
    rw [hc] at hb
    omega
  refine ⟨?_, hne _ (by decide), hne _ (by decide), hne _ (by decide), hne _ (by decide),
    hne _ (by decide), hne _ (by decide), hne _ (by decide), hne _ (by decide)⟩
  cases hws : isJsonWs c with
  | false => rfl
  | true =>
    exfalso
    simp only [isJsonWs, Bool.or_eq_true, decide_eq_true_eq] at hws
    rcases hws with ((((rfl | rfl) | rfl) | rfl) | rfl) | rfl <;> (revert hb; decide)

/-- A serialized number starts with a minus sign or a digit. -/
theorem dumpNum_shape (m e : Int) :
    ∃ c cs, dumpNum m e = c :: cs ∧ (c = '-' ∨ isDigit c = true) := by
  by_cases hm : m < 0
  · by_cases hs : (-e).toNat = 0
    · exact ⟨'-', natDigits m.natAbs, by simp [dumpNum, hm, hs], Or.inl rfl⟩
    · exact ⟨'-', natDigits (m.natAbs / 10 ^ (-e).toNat) ++
        '.' :: padZeros (-e).toNat (natDigits (m.natAbs % 10 ^ (-e).toNat)),
        by simp [dumpNum, hm, hs], Or.inl rfl⟩
  · by_cases hs : (-e).toNat = 0
    · obtain ⟨c, ds, hnd, hcd, hdsd⟩ := natDigits_cons m.natAbs
      exact ⟨c, ds, by simp [dumpNum, hm, hs, hnd], Or.inr hcd⟩
    · obtain ⟨c, ds, hnd, hcd, hdsd⟩ := natDigits_cons (m.natAbs / 10 ^ (-e).toNat)
      exact ⟨c, ds ++ '.' :: padZeros (-e).toNat (natDigits (m.natAbs % 10 ^ (-e).toNat)),
        by simp [dumpNum, hm, hs, hnd], Or.inr hcd⟩

/-- The first character of a serialized value: never whitespace, never a
closing bracket or closing brace. -/
theorem dumpV_head (v : J) :
    ∃ c cs, dumpV v = c :: cs ∧ isJsonWs c = false ∧ c ≠ ']' ∧ c ≠ rbrace := by
  cases v with
  | null => exact ⟨'n', ("ull".data), by rw [dumpV], by decide, by decide, by decide⟩
  | bool b =>
    cases b with
    | true => exact ⟨'t', ("rue".data), by rw [dumpV], by decide, by decide, by decide⟩
    | false => exact ⟨'f', ("alse".data), by rw [dumpV], by decide, by decide, by decide⟩
  | num m e =>
    obtain ⟨c, cs, hd, hc⟩ := dumpNum_shape m e
    rcases hc with hc | hc
    · subst hc
      exact ⟨'-', cs, by rw [dumpV, hd], by decide, by decide, by decide⟩
    · obtain ⟨h1, h2, h3, hrest⟩ := digit_head_facts c hc
      exact ⟨c, cs, by rw [dumpV, hd], h1, h2, h3⟩
  | str s =>
    exact ⟨'"', encStr s ++ ['"'], by rw [dumpV]; rfl, by decide, by decide, by decide⟩
  | arr xs =>
    cases xs with
    | nil => exact ⟨'[', [']'], by rw [dumpV], by decide, by decide, by decide⟩
    | cons x rest =>
      exact ⟨'[', dumpItems x rest ++ [']'], by rw [dumpV], by decide, by decide, by decide⟩
  | obj kvs =>
    cases kvs with
    | nil => exact ⟨lbrace, [rbrace], by rw [dumpV], by decide, by decide, by decide⟩
    | cons kv rest =>
      exact ⟨lbrace, dumpMembers kv rest ++ [rbrace], by rw [dumpV],
        by decide, by decide, by decide⟩

/-- Every value needs at least one unit of fuel. -/
theorem jfuel_pos (v : J) : 1 ≤ jfuel v := by
  cases v with
  | arr xs => cases xs <;> simp [jfuel]
  | obj kvs => cases kvs <;> simp [jfuel]
  | null => simp [jfuel]
  | bool b => simp [jfuel]
  | num m e => simp [jfuel]
  | str s => simp [jfuel]

/-- A nonempty run of items needs at least one unit of fuel. -/
theorem jfuelItems_pos (x : J) (xs : List J) : 1 ≤ jfuelItems x xs := by
  cases xs <;> simp [jfuelItems] <;> omega

/-- A nonempty run of members needs at least one unit of fuel. -/
theorem jfuelMembers_pos (kv : List Char × J) (kvs : List (List Char × J)) :
    1 ≤ jfuelMembers kv kvs := by
  obtain ⟨k, v⟩ := kv
  cases kvs <;> simp [jfuelMembers] <;> omega

/-- A serialized item run starts like its first serialized value. -/
theorem dumpItems_shape (x : J) (xs : List J) :
    ∃ c cs, dumpItems x xs = c :: cs ∧ isJsonWs c = false ∧ c ≠ ']' := by
  obtain ⟨c, cs, hd, hws, hne1, hne2⟩ := dumpV_head x
  cases xs with
  | nil => exact ⟨c, cs, by rw [dumpItems, hd], hws, hne1⟩
  | cons y ys =>
    exact ⟨c, cs ++ ',' :: ' ' :: dumpItems y ys, by rw [dumpItems, hd]; rfl, hws, hne1⟩

/-- A serialized member run starts with a double quote. -/
theorem dumpMembers_shape (kv : List Char × J) (kvs : List (List Char × J)) :
    ∃ cs, dumpMembers kv kvs = '"' :: cs := by
  obtain ⟨k, v⟩ := kv
  cases kvs with
  | nil => exact ⟨encStr k ++ '"' :: ':' :: ' ' :: dumpV v, by rw [dumpMembers]; rfl⟩
  | cons kv2 kvs2 =>
    exact ⟨encStr k ++ '"' :: ':' :: ' ' :: dumpV v ++ ',' :: ' ' :: dumpMembers kv2 kvs2,
      by rw [dumpMembers]; simp⟩

/-- Setting a fresh key appends the binding. -/
theorem setKey_not_mem (acc : List (List Char × J)) (k : List Char) (v : J)
    (h : ∀ kv ∈ acc, kv.1 ≠ k) : setKey acc k v = acc ++ [(k, v)] := by
  unfold setKey
  rw [if_neg ?hc]
  case hc =>
    intro hcon
    obtain ⟨kv, hmem, hbeq⟩ := List.any_eq_true.mp hcon
    exact h kv hmem (by simpa using hbeq)

/-- Rebuilding a dict from bindings with pairwise distinct keys is the
identity. -/
theorem dedupKeys_go :
    ∀ (l acc : List (List Char × J)),
      ((acc ++ l).map (fun kv => kv.1)).Nodup →
      l.foldl (fun a kv => setKey a kv.1 kv.2) acc = acc ++ l := by
  intro l
  induction l with
  | nil => intro acc h; simp
  | cons kv l' ih =>
    intro acc h
    have hsplit : (acc.map (fun kv => kv.1)).Disjoint ((kv :: l').map (fun kv => kv.1)) := by
      have := List.nodup_append.mp (by simpa using h)
      exact this.2.2
    have hfresh : ∀ x ∈ acc, x.1 ≠ kv.1 := by
      intro x hx hcon
      apply hsplit (List.mem_map_of_mem _ hx)
      rw [hcon]
      exact List.mem_map_of_mem _ (List.mem_cons_self kv l')
    have hset : setKey acc kv.1 kv.2 = acc ++ [(kv.1, kv.2)] := setKey_not_mem acc _ _ hfresh
    simp only [List.foldl_cons, hset]
    have hnodup2 : (((acc ++ [(kv.1, kv.2)]) ++ l').map (fun kv => kv.1)).Nodup := by
      have harr : (acc ++ [(kv.1, kv.2)]) ++ l' = acc ++ kv :: l' := by
        simp
      rw [harr]
      exact h
    rw [ih (acc ++ [(kv.1, kv.2)]) hnodup2]
    simp

/-- A dict built from pairwise distinct keys keeps its bindings verbatim. -/
theorem dedupKeys_nodup (l : List (List Char × J))
    (h : (l.map (fun kv => kv.1)).Nodup) : dedupKeys l = l := by
  have := dedupKeys_go l [] (by simpa using h)
  simpa [dedupKeys] using this

/-- Inversion: a well-formed number has a non-positive exponent. -/
theorem Wf_num_le {m e : Int} (h : Wf (J.num m e)) : e ≤ 0 := by
  cases h; assumption

/-- Inversion: elements of a well-formed array are well-formed. -/
theorem Wf_arr_elems {xs : List J} (h : Wf (J.arr xs)) : ∀ x ∈ xs, Wf x := by
  cases h; assumption

/-- Inversion: keys of a well-formed object are pairwise distinct. -/
theorem Wf_obj_nodup {kvs : List (List Char × J)} (h : Wf (J.obj kvs)) :
    (kvs.map (fun kv => kv.1)).Nodup := by
  cases h; assumption

/-- Inversion: values of a well-formed object are well-formed. -/
theorem Wf_obj_vals {kvs : List (List Char × J)} (h : Wf (J.obj kvs)) :
    ∀ kv ∈ kvs, Wf kv.2 := by
  cases h; assumption

/-- A prefix check fails on mismatched heads. -/
theorem isPrefixOf_cons_of_ne (a c : Char) (l t : List Char) (h : a ≠ c) :
    (a :: l).isPrefixOf (c :: t) = false := by
  simp [List.isPrefixOf, h]

/-- Round-trip master induction: with enough fuel, parsing the serialization
of a well-formed value (or of a run of array items or object members),
followed by arbitrary non-number-extending text, recovers the value and the
remainder. -/
theorem parse_dump_master : ∀ fuel : Nat,
    (∀ v rest input, Wf v → jfuel v ≤ fuel → numBoundary rest →
      skipWs input = dumpV v ++ rest → parseVal fuel input = some (v, rest)) ∧
    (∀ x xs acc rest input, Wf x → (∀ y ∈ xs, Wf y) → jfuelItems x xs ≤ fuel →
      skipWs input = dumpItems x xs ++ ']' :: rest →
      parseItems fuel input acc = some (J.arr (acc ++ x :: xs), rest)) ∧
    (∀ kv kvs acc rest input, Wf kv.2 → (∀ y ∈ kvs, Wf y.2) → jfuelMembers kv kvs ≤ fuel →
      skipWs input = dumpMembers kv kvs ++ rbrace :: rest →
      parseMembers fuel input acc = some (J.obj (dedupKeys (acc ++ kv :: kvs)), rest)) := by
  intro fuel
  induction fuel with
  | zero =>
    refine ⟨?_, ?_, ?_⟩
    · intro v rest input _ hf _ _
      have := jfuel_pos v
      omega
    · intro x xs acc rest input _ _ hf _
      have := jfuelItems_pos x xs
      omega
    · intro kv kvs acc rest input _ _ hf _
      have := jfuelMembers_pos kv kvs
      omega
  | succ fuel ih =>
    obtain ⟨ihV, ihI, ihM⟩ := ih
    refine ⟨?_, ?_, ?_⟩
    · -- values
      intro v rest input hwf hjf hnb hskip
      rw [parseVal, hskip]
      cases v with
      | null =>
        rw [show dumpV J.null = 'n' :: 'u' :: 'l' :: 'l' :: [] from by rw [dumpV]]
        simp [lbrace, rbrace, List.isPrefixOf]
      | bool b =>
        cases b with
        | true =>
          rw [show dumpV (J.bool true) = 't' :: 'r' :: 'u' :: 'e' :: [] from by rw [dumpV]]
          simp [lbrace, rbrace, List.isPrefixOf]
        | false =>
          rw [show dumpV (J.bool false) = 'f' :: 'a' :: 'l' :: 's' :: 'e' :: [] from by
            rw [dumpV]]
          simp [lbrace, rbrace, List.isPrefixOf]
      | num m e =>
        have he := Wf_num_le hwf
        obtain ⟨c, cs, hd, hc⟩ := dumpNum_shape m e
        have hfacts : c ≠ lbrace ∧ c ≠ '[' ∧ c ≠ '"' ∧ c ≠ 't' ∧ c ≠ 'f' ∧ c ≠ 'n' := by
          rcases hc with hc | hc
          · subst hc
            exact ⟨by decide, by decide, by decide, by decide, by decide, by decide⟩
          · obtain ⟨_, _, _, h4, h5, h6, h7, h8, h9⟩ := digit_head_facts c hc
            exact ⟨h4, h5, h6, h7, h8, h9⟩
        obtain ⟨hf1, hf2, hf3, hf4, hf5, hf6⟩ := hfacts
        rw [show dumpV (J.num m e) = dumpNum m e from by rw [dumpV], hd, List.cons_append]
        simp only [if_neg hf1, if_neg hf2, if_neg hf3,
          isPrefixOf_cons_of_ne 't' c _ _ (fun hh => hf4 hh.symm),
          isPrefixOf_cons_of_ne 'f' c _ _ (fun hh => hf5 hh.symm),
          isPrefixOf_cons_of_ne 'n' c _ _ (fun hh => hf6 hh.symm),
          Bool.false_eq_true, if_false]
        rw [← List.cons_append, ← hd, parseNum_dumpNum m e rest he hnb]
        rfl
      | str s =>
        rw [show dumpV (J.str s) = '"' :: (encStr s ++ ['"']) from by rw [dumpV]; rfl,
          List.cons_append]
        have hlen : s.length < ((encStr s ++ ['"']) ++ rest).length := by
          have := encStr_length_ge s
          simp only [List.length_append, List.length_cons, List.length_nil]
          omega
        have hshape : (encStr s ++ ['"']) ++ rest = encStr s ++ '"' :: rest := by
          simp
        simp only [reduceIte, lbrace]
        rw [hshape] at hlen ⊢
        rw [parseStr_enc s _ rest hlen]
        rfl
      | arr xs =>
        cases xs with
        | nil =>
          rw [show dumpV (J.arr []) = '[' :: ']' :: [] from by rw [dumpV]]
          simp [lbrace, rbrace, skipWs, List.dropWhile_cons, isJsonWs]
        | cons x xs' =>
          have hwx : Wf x := Wf_arr_elems hwf x (List.mem_cons_self x xs')
          have hwxs : ∀ y ∈ xs', Wf y :=
            fun y hy => Wf_arr_elems hwf y (List.mem_cons_of_mem x hy)
          have hjf2 : jfuelItems x xs' ≤ fuel := by
            rw [show jfuel (J.arr (x :: xs')) = 1 + jfuelItems x xs' from by rw [jfuel]] at hjf
            omega
          obtain ⟨c, cs, hdi, hws, hne1⟩ := dumpItems_shape x xs'
          rw [show dumpV (J.arr (x :: xs')) = '[' :: (dumpItems x xs' ++ [']']) from by
              rw [dumpV], List.cons_append]
          rw [show (dumpItems x xs' ++ [']']) ++ rest = dumpItems x xs' ++ ']' :: rest from by
            simp]
          simp only [eq_false (by decide : ¬('[' : Char) = lbrace), if_false,
            eq_self_iff_true, if_true]
          rw [hdi, List.cons_append, skipWs_cons c _ hws]
          simp only [hne1, if_false]
          rw [← List.cons_append, ← hdi]
          exact ihI x xs' [] rest _ hwx hwxs hjf2
            (by rw [hdi, List.cons_append, skipWs_cons c _ hws])
      | obj kvs =>
        cases kvs with
        | nil =>
          rw [show dumpV (J.obj []) = lbrace :: rbrace :: [] from by rw [dumpV]]
          simp [lbrace, rbrace, skipWs, List.dropWhile_cons, isJsonWs]
        | cons kv kvs' =>
          have hwv : Wf kv.2 := Wf_obj_vals hwf kv (List.mem_cons_self kv kvs')
          have hwvs : ∀ y ∈ kvs', Wf y.2 :=
            fun y hy => Wf_obj_vals hwf y (List.mem_cons_of_mem kv hy)
          have hjf2 : jfuelMembers kv kvs' ≤ fuel := by
            rw [show jfuel (J.obj (kv :: kvs')) = 1 + jfuelMembers kv kvs' from by
              rw [jfuel]] at hjf
            omega
          obtain ⟨cs, hdm⟩ := dumpMembers_shape kv kvs'
          have hnodup : ((kv :: kvs').map (fun kv => kv.1)).Nodup := Wf_obj_nodup hwf
          rw [show dumpV (J.obj (kv :: kvs')) = lbrace :: (dumpMembers kv kvs' ++ [rbrace])
            from by rw [dumpV], List.cons_append]
          rw [show (dumpMembers kv kvs' ++ [rbrace]) ++ rest
            = dumpMembers kv kvs' ++ rbrace :: rest from by simp]
          simp only [eq_self_iff_true, if_true]
          rw [hdm, List.cons_append, skipWs_cons '"' _ (by decide)]
          simp only [eq_false (by decide : ¬('"' : Char) = rbrace), if_false]
          have hm := ihM kv kvs' [] rest ('"' :: (cs ++ rbrace :: rest)) hwv hwvs hjf2
            (by rw [skipWs_cons '"' _ (by decide), hdm, List.cons_append])
          rw [hm, List.nil_append, dedupKeys_nodup (kv :: kvs') hnodup]
    · -- items
      intro x xs acc rest input hwx hwxs hjf hskip
      cases xs with
      | nil =>
        have hjx : jfuel x ≤ fuel := by
          rw [show jfuelItems x [] = 1 + jfuel x from by rw [jfuelItems]] at hjf
          omega
        have hskip2 : skipWs input = dumpV x ++ ']' :: rest := by
          rw [hskip, show dumpItems x [] = dumpV x from by rw [dumpItems]]
        have hpv := ihV x (']' :: rest) input hwx hjx
          ⟨by decide, by decide, by decide, by decide⟩ hskip2
        rw [parseItems, hpv]
        simp [skipWs, List.dropWhile_cons, isJsonWs]
      | cons y ys =>
        have hwy : Wf y := hwxs y (List.mem_cons_self y ys)
        have hwys : ∀ z ∈ ys, Wf z := fun z hz => hwxs z (List.mem_cons_of_mem y hz)
        have hjx : jfuel x ≤ fuel ∧ jfuelItems y ys ≤ fuel := by
          rw [show jfuelItems x (y :: ys) = 1 + jfuel x + jfuelItems y ys from by
            rw [jfuelItems]] at hjf
          constructor <;> omega
        have hskip2 : skipWs input = dumpV x ++ ',' :: ' ' :: (dumpItems y ys ++ ']' :: rest) := by
          rw [hskip, show dumpItems x (y :: ys) = dumpV x ++ ',' :: ' ' :: dumpItems y ys from by
            rw [dumpItems]]
          simp
        have hpv := ihV x (',' :: ' ' :: (dumpItems y ys ++ ']' :: rest)) input hwx hjx.1
          ⟨by decide, by decide, by decide, by decide⟩ hskip2
        obtain ⟨c, cs, hdi, hws, hne1⟩ := dumpItems_shape y ys
        have hskip3 : skipWs (' ' :: (dumpItems y ys ++ ']' :: rest))
            = dumpItems y ys ++ ']' :: rest := by
          rw [skipWs_space, hdi, List.cons_append, skipWs_cons c _ hws]
        have hrec := ihI y ys (acc ++ [x]) rest (' ' :: (dumpItems y ys ++ ']' :: rest))
          hwy hwys hjx.2 hskip3
        rw [parseItems, hpv]
        simp only [skipWs, List.dropWhile_cons, isJsonWs]
        simp only [show ((',' : Char) = ' ' || (',' : Char) = '\t' || (',' : Char) = '\n'
          || (',' : Char) = '\r') = false from by decide, Bool.false_eq_true, if_false]
        rw [hrec]
        simp
    · -- members
      intro kv kvs acc rest input hwv hwvs hjf hskip
      obtain ⟨k, v⟩ := kv
      cases kvs with
      | nil =>
        have hjv : jfuel v ≤ fuel := by
          rw [show jfuelMembers (k, v) [] = 1 + jfuel v from by rw [jfuelMembers]] at hjf
          omega
        have hskip2 : skipWs input
            = '"' :: (encStr k ++ '"' :: ':' :: ' ' :: (dumpV v ++ rbrace :: rest)) := by
          rw [hskip, show dumpMembers (k, v) []
            = '"' :: encStr k ++ '"' :: ':' :: ' ' :: dumpV v from by rw [dumpMembers]]
          simp
        have hlen : k.length
            < (encStr k ++ '"' :: ':' :: ' ' :: (dumpV v ++ rbrace :: rest)).length := by
          have := encStr_length_ge k
          simp only [List.length_append, List.length_cons]
          omega
        have hps := parseStr_enc k _ (':' :: ' ' :: (dumpV v ++ rbrace :: rest)) hlen
        obtain ⟨c, cs, hdv, hws, hne1, hne2⟩ := dumpV_head v
        have hskip3 : skipWs (' ' :: (dumpV v ++ rbrace :: rest)) = dumpV v ++ rbrace :: rest := by
          rw [skipWs_space, hdv, List.cons_append, skipWs_cons c _ hws]
        have hpv := ihV v (rbrace :: rest) (' ' :: (dumpV v ++ rbrace :: rest)) hwv hjv
          ⟨by decide, by decide, by decide, by decide⟩ hskip3
        rw [parseMembers, hskip2]
        simp only [hps, skipWs, List.dropWhile_cons,
          show isJsonWs ':' = false from by decide,
          show isJsonWs rbrace = false from by decide,
          Bool.false_eq_true, if_false, hpv,
          eq_false (by decide : ¬rbrace = ','),
          eq_self_iff_true, if_true]
        rfl
      | cons kv2 kvs2 =>
        have hwv2 : Wf kv2.2 := hwvs kv2 (List.mem_cons_self kv2 kvs2)
        have hwvs2 : ∀ y ∈ kvs2, Wf y.2 := fun y hy => hwvs y (List.mem_cons_of_mem kv2 hy)
        have hjx : jfuel v ≤ fuel ∧ jfuelMembers kv2 kvs2 ≤ fuel := by
          rw [show jfuelMembers (k, v) (kv2 :: kvs2)
            = 1 + jfuel v + jfuelMembers kv2 kvs2 from by rw [jfuelMembers]] at hjf
          constructor <;> omega
        have hskip2 : skipWs input
            = '"' :: (encStr k ++ '"' :: ':' :: ' ' ::
              (dumpV v ++ ',' :: ' ' :: (dumpMembers kv2 kvs2 ++ rbrace :: rest))) := by
          rw [hskip, show dumpMembers (k, v) (kv2 :: kvs2)
            = ('"' :: encStr k ++ '"' :: ':' :: ' ' :: dumpV v)
              ++ ',' :: ' ' :: dumpMembers kv2 kvs2 from by rw [dumpMembers]]
          simp
        have hlen : k.length < (encStr k ++ '"' :: ':' :: ' ' ::
            (dumpV v ++ ',' :: ' ' :: (dumpMembers kv2 kvs2 ++ rbrace :: rest))).length := by
          have := encStr_length_ge k
          simp only [List.length_append, List.length_cons]
          omega
        have hps := parseStr_enc k _ (':' :: ' ' ::
          (dumpV v ++ ',' :: ' ' :: (dumpMembers kv2 kvs2 ++ rbrace :: rest))) hlen
        obtain ⟨c, cs, hdv, hws, hne1, hne2⟩ := dumpV_head v
        have hskip3 : skipWs (' ' :: (dumpV v ++ ',' :: ' ' ::
            (dumpMembers kv2 kvs2 ++ rbrace :: rest)))
            = dumpV v ++ ',' :: ' ' :: (dumpMembers kv2 kvs2 ++ rbrace :: rest) := by
          rw [skipWs_space, hdv, List.cons_append, skipWs_cons c _ hws]
        have hpv := ihV v (',' :: ' ' :: (dumpMembers kv2 kvs2 ++ rbrace :: rest))
          (' ' :: (dumpV v ++ ',' :: ' ' :: (dumpMembers kv2 kvs2 ++ rbrace :: rest)))
          hwv hjx.1 ⟨by decide, by decide, by decide, by decide⟩ hskip3
        obtain ⟨cs2, hdm⟩ := dumpMembers_shape kv2 kvs2
        have hskip4 : skipWs (' ' :: (dumpMembers kv2 kvs2 ++ rbrace :: rest))
            = dumpMembers kv2 kvs2 ++ rbrace :: rest := by
          rw [skipWs_space, hdm, List.cons_append, skipWs_cons '"' _ (by decide)]
        have hrec := ihM kv2 kvs2 (acc ++ [(k, v)]) rest
          (' ' :: (dumpMembers kv2 kvs2 ++ rbrace :: rest)) hwv2 hwvs2 hjx.2 hskip4
        rw [parseMembers, hskip2]
        simp only [hps, skipWs, List.dropWhile_cons,
          show isJsonWs ':' = false from by decide,
          show isJsonWs ',' = false from by decide,
          Bool.false_eq_true, if_false, hpv,
          eq_self_iff_true, if_true]
        rw [hrec]
        simp

mutual

/-- The parser's fuel bound is covered by the serialized length. -/
theorem jfuel_le (v : J) : jfuel v ≤ (dumpV v).length := by
  cases v with
  | null => simp [jfuel, dumpV]
  | bool b => cases b <;> simp [jfuel, dumpV]
  | num m e =>
    obtain ⟨c, cs, hd, _⟩ := dumpNum_shape m e
    rw [show dumpV (J.num m e) = dumpNum m e from by rw [dumpV], hd]
    simp [jfuel]
  | str s =>
    rw [show dumpV (J.str s) = '"' :: (encStr s ++ ['"']) from by rw [dumpV]; rfl]
    simp [jfuel]
  | arr xs =>
    cases xs with
    | nil => simp [jfuel, dumpV]
    | cons x xs' =>
      have h := jfuelItems_le x xs'
      rw [show jfuel (J.arr (x :: xs')) = 1 + jfuelItems x xs' from by rw [jfuel],
        show dumpV (J.arr (x :: xs')) = '[' :: (dumpItems x xs' ++ [']']) from by rw [dumpV]]
      simp only [List.length_cons, List.length_append, List.length_nil]
      omega
  | obj kvs =>
    cases kvs with
    | nil => simp [jfuel, dumpV]
    | cons kv kvs' =>
      have h := jfuelMembers_le kv kvs'
      rw [show jfuel (J.obj (kv :: kvs')) = 1 + jfuelMembers kv kvs' from by rw [jfuel],
        show dumpV (J.obj (kv :: kvs')) = lbrace :: (dumpMembers kv kvs' ++ [rbrace]) from by
          rw [dumpV]]
      simp only [List.length_cons, List.length_append, List.length_nil]
      omega
termination_by sizeOf v

/-- Fuel bound for an item run against its serialized length. -/
theorem jfuelItems_le (x : J) (xs : List J) :
    jfuelItems x xs ≤ (dumpItems x xs).length + 1 := by
  cases xs with
  | nil =>
    have h := jfuel_le x
    rw [show jfuelItems x [] = 1 + jfuel x from by rw [jfuelItems],
      show dumpItems x [] = dumpV x from by rw [dumpItems]]
    omega
  | cons y ys =>
    have h1 := jfuel_le x
    have h2 := jfuelItems_le y ys
    rw [show jfuelItems x (y :: ys) = 1 + jfuel x + jfuelItems y ys from by rw [jfuelItems],
      show dumpItems x (y :: ys) = dumpV x ++ ',' :: ' ' :: dumpItems y ys from by
        rw [dumpItems]]
    simp only [List.length_append, List.length_cons]
    omega
termination_by sizeOf x + sizeOf xs

/-- Fuel bound for a member run against its serialized length. -/
theorem jfuelMembers_le (kv : List Char × J) (kvs : List (List Char × J)) :
    jfuelMembers kv kvs ≤ (dumpMembers kv kvs).length + 1 := by
  obtain ⟨k, v⟩ := kv
  cases kvs with
  | nil =>
    have h := jfuel_le v
    rw [show jfuelMembers (k, v) [] = 1 + jfuel v from by rw [jfuelMembers],
      show dumpMembers (k, v) [] = '"' :: encStr k ++ '"' :: ':' :: ' ' :: dumpV v from by
        rw [dumpMembers]]
    simp only [List.length_append, List.length_cons]
    omega
  | cons kv2 kvs2 =>
    have h1 := jfuel_le v
    have h2 := jfuelMembers_le kv2 kvs2
    rw [show jfuelMembers (k, v) (kv2 :: kvs2) = 1 + jfuel v + jfuelMembers kv2 kvs2 from by
        rw [jfuelMembers],
      show dumpMembers (k, v) (kv2 :: kvs2)
        = ('"' :: encStr k ++ '"' :: ':' :: ' ' :: dumpV v) ++ ',' :: ' ' :: dumpMembers kv2 kvs2
        from by rw [dumpMembers]]
    simp only [List.length_append, List.length_cons]
    omega
termination_by sizeOf kv + sizeOf kvs

end

/-- json.loads is a left inverse of json.dumps on well-formed values. -/
theorem loads_dumpV (v : J) (hw : Wf v) : loads (dumpV v) = some v := by
  have hb := jfuel_le v
  obtain ⟨c, cs, hdv, hws, -, -⟩ := dumpV_head v
  have hskip : skipWs (dumpV v) = dumpV v ++ [] := by
    rw [List.append_nil, hdv, skipWs_cons c _ hws]
  have hp := (parse_dump_master ((dumpV v).length + 1)).1 v [] (dumpV v) hw (by omega)
    trivial hskip
  rw [loads, hp]
  rfl

/-- Fence stripping leaves a serialized JSON array untouched: the text
starts with a bracket, not a backtick fence. -/
theorem stripFences_arr (l : List J) : stripFences (dumpV (J.arr l)) = dumpV (J.arr l) := by
  cases l with
  | nil =>
    rw [show dumpV (J.arr []) = '[' :: ']' :: [] from by rw [dumpV]]
    simp [stripFences, List.isPrefixOf]
  | cons x xs =>
    rw [show dumpV (J.arr (x :: xs)) = '[' :: (dumpItems x xs ++ [']']) from by rw [dumpV]]
    simp [stripFences, List.isPrefixOf]

/-- The response parser recovers any serialized array of well-formed values. -/
theorem parse_model_output_dump (comps : List J) (hw : ∀ x ∈ comps, Wf x) :
    parse_model_output (dumpV (J.arr comps)) = some (J.arr comps) := by
  simp only [parse_model_output]
  rw [stripFences_arr, loads_dumpV (J.arr comps) (Wf.arr comps hw)]

/-- Every component record serializes to a well-formed JSON object. -/
theorem toJ_wf (c : ComponentRecord) : Wf (ComponentRecord.toJ c) := by
  rw [ComponentRecord.toJ]
  refine Wf.obj _ ?_ ?_
  · simp only [List.map_cons, List.map_nil]
    decide
  · intro kv hkv
    simp only [List.mem_cons, List.not_mem_nil, or_false] at hkv
    rcases hkv with rfl | rfl | rfl | rfl | rfl | rfl
    · exact Wf.str _
    · exact Wf.str _
    · exact Wf.str _
    · exact Wf.num _ _ (by omega)
    · exact Wf.str _
    · exact Wf.str _

/-- C7: serializing a sequence of component records into a training
example's assistant message and feeding that message to the completion
response parser yields back an equal sequence, order and field values
preserved: the assistant content of `create_training_example` is exactly
the JSON-array serialization of the records, and `parse_model_output` maps
that text back to the same array. -/
theorem c7_theorem (text : List Char) (recs : List ComponentRecord) :
    (∃ sys usr,
      create_training_example text (recs.map ComponentRecord.toJ)
        = J.obj [(("messages".data), J.arr [sys, usr,
            J.obj [(("role".data), J.str ("assistant".data)),
                   (("content".data),
                    J.str (dumpV (J.arr (recs.map ComponentRecord.toJ))))]])]) ∧
    parse_model_output (dumpV (J.arr (recs.map ComponentRecord.toJ)))
      = some (J.arr (recs.map ComponentRecord.toJ)) := by
  constructor
  · exact ⟨_, _, rfl⟩
  · refine parse_model_output_dump _ ?_
    intro x hx
    obtain ⟨r, hr, rfl⟩ := List.mem_map.mp hx
    exact toJ_wf r
